import Mathlib

/-!
Verification of the RedisGraph SpGEMM kernel
(`src/deps/GraphBLAS/Source/Template/GB_AxB_Gustavson_nomask.c`) and of the
record layer (`src/src/execution_plan/record.c`) against the repository's
specification.  The C code is shallowly embedded: compressed-column matrices
become lists, the dense workspace and C's value array become total functions
`Nat → c` updated pointwise, and each C `for` loop becomes a `List.foldl`
over `List.range' start len`.
-/

/-- A semiring as used by the kernel: identity element of the output type,
`multiply : a → b → c`, and the additive monoid operator `add : c → c → c`
(`w [i] += A(i,k) * B(k,j)` expands to `add` / `mult`). -/
structure GBSemiring (a b c : Type) where
  identity : c
  mult : a → b → c
  add : c → c → c

/-- A GraphBLAS matrix in compressed-column (optionally hypersparse) form:
`vlen`/`vdim` are the row/column domain sizes, `nvec` the number of stored
vectors, `p` the pointer array (length `nvec+1`), `h` the hypersparse
vector-index list, `i` the row indices, `x` the values, and `magic` the
finalized-pattern tag. -/
structure GBMat (α : Type) where
  vlen : Nat
  vdim : Nat
  nvec : Nat
  is_hyper : Bool
  p : List Nat
  h : List Nat
  i : List Nat
  x : List α
  magic : Nat

/-- The loop `for (pC = pC_start ; pC < pC_end ; pC++) COPY_SCALAR_TO_ARRAY
(w, Ci [pC], IDENTITY, zsize)`: clear the workspace at the positions of
C's column pattern. -/
def clearW {c : Type} (idv : c) (Ci : List Nat) (pCs pCe : Nat) (w : Nat → c) : Nat → c :=
  (List.range' pCs (pCe - pCs)).foldl (fun w pC => Function.update w (Ci.getD pC 0) idv) w

/-- The loop `for (pA = pA_start ; pA < pA_end ; pA++) { i = Ai [pA] ;
MULTADD_NOMASK ; }`: scatter `A(:,k) * B(k,j)` into the workspace, where
`MULTADD_NOMASK` is `w [i] += A(i,k) * B(k,j)`. -/
def scatterW {a b c : Type} [Inhabited a] (S : GBSemiring a b c) (Ai : List Nat) (Ax : List a)
    (bkj : b) (pAs pAe : Nat) (w : Nat → c) : Nat → c :=
  (List.range' pAs (pAe - pAs)).foldl
    (fun w pA =>
      Function.update w (Ai.getD pA 0)
        (S.add (w (Ai.getD pA 0)) (S.mult (Ax.getD pA default) bkj))) w

/-- The middle loop `for (pB = pB_start ; pB < pB_end ; pB++)` in the
non-hypersparse path: for each entry `B(k,j)`, look up `A(:,k)` directly
(`pA_start = Ap [k] ; pA_end = Ap [k+1]`), skip when empty, else read
`bkj` and scatter. -/
def saxpyCol {a b c : Type} [Inhabited a] [Inhabited b] (S : GBSemiring a b c) (A : GBMat a)
    (Bi : List Nat) (Bx : List b) (pBs pBe : Nat) (w : Nat → c) : Nat → c :=
  (List.range' pBs (pBe - pBs)).foldl
    (fun w pB =>
      let k := Bi.getD pB 0
      let pA_start := A.p.getD k 0
      let pA_end := A.p.getD (k + 1) 0
      if pA_start == pA_end then w
      else scatterW S A.i A.x (Bx.getD pB default) pA_start pA_end w) w

/-- The loop `for (pC = pC_start ; pC < pC_end ; pC++) COPY_ARRAY_TO_ARRAY
(Cx, pC, w, Ci [pC], zsize)`: gather C's column from the workspace.  The
positions written to `Cx` are also recorded in a trace (second component). -/
def gatherC {c : Type} (Ci : List Nat) (pCs pCe : Nat) (w : Nat → c) (cx : Nat → c)
    (wr : List Nat) : (Nat → c) × List Nat :=
  (List.range' pCs (pCe - pCs)).foldl
    (fun st pC => (Function.update st.1 pC (w (Ci.getD pC 0)), st.2 ++ [pC])) (cx, wr)

/-- Kernel state: the dense workspace `w`, C's value array `cx`, and the
trace `wr` of positions of `cx` written so far. -/
structure KSt (c : Type) where
  w : Nat → c
  cx : Nat → c
  wr : List Nat

/-- One iteration of the column loop of the non-hypersparse path
(`for (j = 0 ; j < n ; j++)`): read B's and C's ranges from `Bp`/`Cp`,
skip when `pC_end == pC_start`, else clear, saxpy and gather. -/
def gustavsonCol {a b c : Type} [Inhabited a] [Inhabited b] (S : GBSemiring a b c)
    (A : GBMat a) (B : GBMat b) (C : GBMat c) (j : Nat) (st : KSt c) : KSt c :=
  let pB_start := B.p.getD j 0
  let pB_end := B.p.getD (j + 1) 0
  let pC_start := C.p.getD j 0
  let pC_end := C.p.getD (j + 1) 0
  if pC_end == pC_start then st
  else
    let w := clearW S.identity C.i pC_start pC_end st.w
    let w := saxpyCol S A B.i B.x pB_start pB_end w
    let g := gatherC C.i pC_start pC_end w st.cx st.wr
    ⟨w, g.1, g.2⟩

/-- The non-hypersparse path of `GB_AxB_Gustavson_nomask`: the column loop
over `j = 0 .. C->vdim - 1`, started on workspace `w0` and value array
`cx0`. -/
def gustavsonNoMask {a b c : Type} [Inhabited a] [Inhabited b] (S : GBSemiring a b c)
    (A : GBMat a) (B : GBMat b) (C : GBMat c) (w0 cx0 : Nat → c) : KSt c :=
  (List.range C.vdim).foldl (fun st j => gustavsonCol S A B C j st) ⟨w0, cx0, []⟩

/-- The function `GB_AxB_Gustavson_nomask` seen at the matrix level: it returns C with the
same pattern (`p`, `h`, `i`, `nvec`, dimensions) and a freshly computed value
array, together with the trace of value-array positions written. -/
def GB_AxB_Gustavson_nomask {a b c : Type} [Inhabited a] [Inhabited b] [Inhabited c]
    (S : GBSemiring a b c) (A : GBMat a) (B : GBMat b) (C : GBMat c) (w0 : Nat → c) :
    GBMat c × List Nat :=
  let st := gustavsonNoMask S A B C w0 (fun q => C.x.getD q default)
  ({ C with x := (List.range C.x.length).map st.cx }, st.wr)

/-- Position of row `r` inside the index range `[ps, pe)` of a row-index
array, if present (the unique such position when the range is strictly
increasing). -/
def findPos (Mi : List Nat) (ps pe r : Nat) : Option Nat :=
  (List.range' ps (pe - ps)).find? (fun q => Mi.getD q 0 == r)

/-- The specification's value for stored position of row `r`, column `j` of
C: the semiring sum, accumulated from the identity in ascending `k` order,
of `multiply (A(r,k), B(k,j))` over all `k` with both entries present. -/
def specContrib {a b c : Type} [Inhabited a] [Inhabited b] (S : GBSemiring a b c)
    (A : GBMat a) (B : GBMat b) (j r : Nat) : c :=
  (List.range B.vlen).foldl
    (fun acc k =>
      match findPos B.i (B.p.getD j 0) (B.p.getD (j + 1) 0) k,
            findPos A.i (A.p.getD k 0) (A.p.getD (k + 1) 0) r with
      | some pB, some pA => S.add acc (S.mult (A.x.getD pA default) (B.x.getD pB default))
      | _, _ => acc) S.identity

/-- The pointer array is non-decreasing over the stored vectors. -/
def MonotoneP (P : List Nat) (n : Nat) : Prop :=
  ∀ v, v < n → P.getD v 0 ≤ P.getD (v + 1) 0

/-- The row indices are strictly increasing on the range `[ps, pe)`
(adjacent form). -/
def ColStrictIncr (Mi : List Nat) (ps pe : Nat) : Prop :=
  ∀ q, ps ≤ q → q + 1 < pe → Mi.getD q 0 < Mi.getD (q + 1) 0

/-- Well-formedness of a matrix, following §3 of the specification. -/
def WFMat {α : Type} (M : GBMat α) : Prop :=
  M.p.length = M.nvec + 1 ∧
  M.p.getD 0 0 = 0 ∧
  MonotoneP M.p M.nvec ∧
  M.i.length = M.p.getD M.nvec 0 ∧
  M.x.length = M.i.length ∧
  (∀ v, v < M.nvec → ColStrictIncr M.i (M.p.getD v 0) (M.p.getD (v + 1) 0)) ∧
  (∀ q, q < M.i.length → M.i.getD q 0 < M.vlen) ∧
  (if M.is_hyper then
      M.h.length = M.nvec ∧ ColStrictIncr M.h 0 M.nvec ∧
        (∀ t, t < M.nvec → M.h.getD t 0 < M.vdim)
    else M.nvec = M.vdim)

/-- The right bound of the finalized pattern of C is a (possibly strict)
superset of the true nonzero structure of `A*B`: every row reachable through
some `k` present in both `B(:,j)` and `A(:,k)` is stored in C's column `j`. -/
def PatternSuperset {a b c : Type} (A : GBMat a) (B : GBMat b) (C : GBMat c) : Prop :=
  ∀ j, j < C.vdim → ∀ r, r < C.vlen →
    (∃ pB, pB < B.p.getD (j + 1) 0 ∧ B.p.getD j 0 ≤ pB ∧
      ∃ pA, pA < A.p.getD (B.i.getD pB 0 + 1) 0 ∧ A.p.getD (B.i.getD pB 0) 0 ≤ pA ∧
        A.i.getD pA 0 = r) →
    ∃ pC, pC < C.p.getD (j + 1) 0 ∧ C.p.getD j 0 ≤ pC ∧ C.i.getD pC 0 = r

instance (Mi : List Nat) (ps pe : Nat) : Decidable (ColStrictIncr Mi ps pe) :=
  decidable_of_iff (∀ q, q < pe → (ps ≤ q → q + 1 < pe → Mi.getD q 0 < Mi.getD (q + 1) 0))
    (by
      constructor
      · intro h q h1 h2
        exact h q (by omega) h1 h2
      · intro h q _ h1 h2
        exact h q h1 h2)

instance {α : Type} (M : GBMat α) : Decidable (WFMat M) := by
  unfold WFMat MonotoneP
  infer_instance

instance {a b c : Type} (A : GBMat a) (B : GBMat b) (C : GBMat c) :
    Decidable (PatternSuperset A B C) := by
  unfold PatternSuperset
  infer_instance

/-- Modelled from the spec: the finalized-pattern tag compared (in intent) by
`ASSERT (C->magic = MAGIC)` is not defined in the excerpt; all that matters
here is that it is a fixed nonzero value. -/
def MAGIC : Nat := 0x72

def exS : GBSemiring Nat Nat Nat := ⟨0, (· * ·), (· + ·)⟩

def exA : GBMat Nat := ⟨2, 2, 2, false, [0, 1, 2], [], [0, 1], [1, 2], MAGIC⟩

def exB : GBMat Nat := ⟨2, 2, 2, false, [0, 1, 3], [], [0, 0, 1], [1, 1, 1], MAGIC⟩

def exC : GBMat Nat := ⟨2, 2, 2, false, [0, 1, 3], [], [0, 0, 1], [7, 7, 7], MAGIC⟩

/-- The invariant-check block at the top of `GB_AxB_Gustavson_nomask`:
`ASSERT (NOT_ALIASED_3 (C, M, A, B))`, the three dimension asserts,
`ASSERT (C->nvec <= B->nvec)` and `ASSERT (C->magic = MAGIC)`.  Aliasing is
modelled by buffer identifiers (`cid` for C, `mid` for the absent mask,
`aid`, `bid`); `NOT_ALIASED_3` is not under `src/` and is modelled from the
spec: C occupies memory disjoint from M, A and B.  The final assert is, in
the C source, the ASSIGNMENT `C->magic = MAGIC`: the value of that
expression is `MAGIC`, which is nonzero, so this assert always passes, and
`C->magic` is overwritten with `MAGIC`.  Returns (all asserts passed, C
after the block). -/
def checkInputs {a b c : Type} (cid mid aid bid : Nat) (C : GBMat c) (A : GBMat a)
    (B : GBMat b) : Bool × GBMat c :=
  let ok1 := decide (cid ≠ mid) && decide (cid ≠ aid) && decide (cid ≠ bid)
  let ok2 := decide (C.vdim = B.vdim) && decide (C.vlen = A.vlen) && decide (A.vdim = B.vlen)
  let ok3 := decide (C.nvec ≤ B.nvec)
  let ok4 := MAGIC != 0
  (ok1 && ok2 && ok3 && ok4, { C with magic := MAGIC })

/-- A C matrix whose pattern is not finalized (`magic = 0 ≠ MAGIC`), otherwise
identical to `exC`. -/
def exCbad : GBMat Nat := ⟨2, 2, 2, false, [0, 1, 3], [], [0, 0, 1], [7, 7, 7], 0⟩

/-- Type `RecordEntryType` from `record.h`. -/
inductive RecEntryType where
  | unknown
  | scalar
  | node
  | edge
deriving DecidableEq

/-- An entry of a `Record`: a type tag plus the union `value` (its scalar,
node and edge members modelled as separate fields `s`, `n`, `e`). -/
structure REntry (V N E : Type) where
  type : RecEntryType
  s : V
  n : N
  e : E

instance {V N E : Type} [Inhabited V] [Inhabited N] [Inhabited E] :
    Inhabited (REntry V N E) :=
  ⟨⟨RecEntryType.unknown, default, default, default⟩⟩

/-- A `Record`: its entry array (the rax mapping is irrelevant here). -/
structure GRecord (V N E : Type) where
  entries : List (REntry V N E)

/-- Function `SIValue Record_GetScalar(Record r, int idx)`: first executes
`r->entries[idx].type = REC_TYPE_SCALAR;` and then returns
`r->entries[idx].value.s`; modelled as (returned value, record after the
call). -/
def Record_GetScalar {V N E : Type} [Inhabited V] [Inhabited N] [Inhabited E]
    (r : GRecord V N E) (idx : Nat) : V × GRecord V N E :=
  let r' : GRecord V N E :=
    ⟨r.entries.set idx { r.entries.getD idx default with type := RecEntryType.scalar }⟩
  ((r'.entries.getD idx default).s, r')

/-- Function `Node *Record_GetNode(const Record r, int idx)`: sets
`r->entries[idx].type = REC_TYPE_NODE;` and returns `&(r->entries[idx].value.n)`. -/
def Record_GetNode {V N E : Type} [Inhabited V] [Inhabited N] [Inhabited E]
    (r : GRecord V N E) (idx : Nat) : N × GRecord V N E :=
  let r' : GRecord V N E :=
    ⟨r.entries.set idx { r.entries.getD idx default with type := RecEntryType.node }⟩
  ((r'.entries.getD idx default).n, r')

/-- Function `Edge *Record_GetEdge(const Record r, int idx)`: sets
`r->entries[idx].type = REC_TYPE_EDGE;` and returns `&(r->entries[idx].value.e)`. -/
def Record_GetEdge {V N E : Type} [Inhabited V] [Inhabited N] [Inhabited E]
    (r : GRecord V N E) (idx : Nat) : E × GRecord V N E :=
  let r' : GRecord V N E :=
    ⟨r.entries.set idx { r.entries.getD idx default with type := RecEntryType.edge }⟩
  ((r'.entries.getD idx default).e, r')

/-- Modelled from the spec: the binary search macro behind `GB_lookup` is not
under `src/`.  The spec describes `locate(column_id, window)` as binary
search over `h` restricted to the window `[pleft, pright]`, which on a
strictly increasing list yields exactly the slot inside the window whose id
equals `k`, or not-found. -/
def locateSlot (Ah : List Nat) (pleft : Nat) (pright : Int) (k : Nat) : Option Nat :=
  (List.range' pleft (pright + 1 - (pleft : Int)).toNat).find? (fun t => Ah.getD t 0 == k)

/-- Modelled from the spec: `GB_bracket_right (maxid, Ah, 0, &pright)`;
`trim_right(max_row_id, window)` shrinks the window's right bound so as to
exclude the vector slots whose column id exceeds `max_row_id`; on the
strictly increasing list `Ah` the kept slots `0 .. pright'` are exactly
those with id at most `max_row_id` (the bound is `-1` when no slot
qualifies). -/
def trimRight (Ah : List Nat) (maxid : Nat) (pright : Int) : Int :=
  (((Ah.take (pright + 1).toNat).countP (fun v => decide (v ≤ maxid)) : Int)) - 1

/-- Modelled from the spec: the iterator `for_each_vector2` / `GBI2_initj` is
not under `src/`.  The spec says the kernel iterates over every stored
vector of B, and when B is hypersparse this fixes which C column is
produced: slot `s` yields column `Bh [s]` when B is hypersparse, else
column `s`. -/
def jOf {β : Type} (B : GBMat β) (s : Nat) : Nat :=
  if B.is_hyper then B.h.getD s 0 else s

/-- Modelled from the spec: the part of `GBI2_initj` that yields C's pattern
range for output column `j` is not under `src/`.  `[pC_start, pC_end)` is
C's range for `j`; when C is hypersparse the stored slot holding column `j`
is looked up in `Ch`, and a column with no stored vector has an empty
range. -/
def cRangeFor {γ : Type} (C : GBMat γ) (j : Nat) : Nat × Nat :=
  if C.is_hyper then
    match (List.range C.nvec).find? (fun t => C.h.getD t 0 == j) with
    | some t => (C.p.getD t 0, C.p.getD (t + 1) 0)
    | none => (0, 0)
  else (C.p.getD j 0, C.p.getD (j + 1) 0)

/-- Result of `GB_lookup`: the advanced window lower bound, the pointer range
of the located vector, and the locate-trace (the located slot or `none`,
recorded only when A is hypersparse and a search actually ran). -/
structure LookupOut where
  pleft : Nat
  pA_start : Nat
  pA_end : Nat
  tr : List (Option Nat)

/-- Modelled from the spec: `GB_lookup (A_is_hyper, Ah, Ap, &pleft, pright,
k, &pA_start, &pA_end)` is not under `src/`.  If A is hypersparse, locate
column `k` in `Ah` within `[pleft, pright]`; on success the window's lower
bound is advanced to the found slot and that slot's pointer range is
returned, on failure the returned range is empty.  If A is not hypersparse
the range is `[Ap k, Ap (k+1))` directly. -/
def lookupA {α : Type} (A : GBMat α) (pleft : Nat) (pright : Int) (k : Nat) : LookupOut :=
  if A.is_hyper then
    match locateSlot A.h pleft pright k with
    | some t => ⟨t, A.p.getD t 0, A.p.getD (t + 1) 0, [some t]⟩
    | none => ⟨pleft, 0, 0, [none]⟩
  else ⟨pleft, A.p.getD k 0, A.p.getD (k + 1) 0, []⟩

/-- State of the inner `pB` loop on the hypersparse path: the workspace, the
reused window lower bound `pleft`, and the locate-trace. -/
structure HSaxSt (c : Type) where
  w : Nat → c
  pleft : Nat
  locs : List (Option Nat)

/-- One iteration of the middle loop of the hypersparse path at probe
position `pB`: `k = Bi [pB]`, find `A(:,k)` with `GB_lookup` (reusing the
window lower bound, since `Bi [...]` is sorted), skip if empty, else read
`bkj` and scatter. -/
def hsaxpyStep {a b c : Type} [Inhabited a] [Inhabited b] (S : GBSemiring a b c) (A : GBMat a)
    (Bi : List Nat) (Bx : List b) (pright : Int) (st : HSaxSt c) (pB : Nat) : HSaxSt c :=
  let k := Bi.getD pB 0
  let r := lookupA A st.pleft pright k
  if r.pA_start == r.pA_end then ⟨st.w, r.pleft, st.locs ++ r.tr⟩
  else ⟨scatterW S A.i A.x (Bx.getD pB default) r.pA_start r.pA_end st.w, r.pleft,
        st.locs ++ r.tr⟩

/-- The middle loop `for (pB = pB_start ; pB < pB_end ; pB++)` of the
hypersparse path, over an explicit list of probe positions. -/
def hsaxpyGo {a b c : Type} [Inhabited a] [Inhabited b] (S : GBSemiring a b c) (A : GBMat a)
    (Bi : List Nat) (Bx : List b) (pright : Int) (l : List Nat) (st0 : HSaxSt c) :
    HSaxSt c :=
  l.foldl (hsaxpyStep S A Bi Bx pright) st0

/-- The middle loop `for (pB = pB_start ; pB < pB_end ; pB++)` of the
hypersparse path. -/
def hsaxpy {a b c : Type} [Inhabited a] [Inhabited b] (S : GBSemiring a b c) (A : GBMat a)
    (Bi : List Nat) (Bx : List b) (pBs pBe : Nat) (pright : Int) (st0 : HSaxSt c) :
    HSaxSt c :=
  hsaxpyGo S A Bi Bx pright (List.range' pBs (pBe - pBs)) st0

/-- One iteration of the reference (C6) variant of the middle loop: every
probe is a full-range search (`pleft = 0`, `pright = anvec - 1`), with no
window reuse. -/
def hsaxpyNaiveStep {a b c : Type} [Inhabited a] [Inhabited b] (S : GBSemiring a b c)
    (A : GBMat a) (Bi : List Nat) (Bx : List b) (st : HSaxSt c) (pB : Nat) : HSaxSt c :=
  let k := Bi.getD pB 0
  let r := lookupA A 0 ((A.nvec : Int) - 1) k
  if r.pA_start == r.pA_end then ⟨st.w, st.pleft, st.locs ++ r.tr⟩
  else ⟨scatterW S A.i A.x (Bx.getD pB default) r.pA_start r.pA_end st.w, st.pleft,
        st.locs ++ r.tr⟩

/-- The reference (C6) middle loop over an explicit list of probe positions. -/
def hsaxpyNaiveGo {a b c : Type} [Inhabited a] [Inhabited b] (S : GBSemiring a b c)
    (A : GBMat a) (Bi : List Nat) (Bx : List b) (l : List Nat) (st0 : HSaxSt c) : HSaxSt c :=
  l.foldl (hsaxpyNaiveStep S A Bi Bx) st0

/-- The reference (C6) middle loop: full-range search on every probe. -/
def hsaxpyNaive {a b c : Type} [Inhabited a] [Inhabited b] (S : GBSemiring a b c)
    (A : GBMat a) (Bi : List Nat) (Bx : List b) (pBs pBe : Nat) (st0 : HSaxSt c) :
    HSaxSt c :=
  hsaxpyNaiveGo S A Bi Bx (List.range' pBs (pBe - pBs)) st0

/-- State of the hypersparse kernel: workspace, C's value array, the trace of
locator windows right after the per-column trim step, and the locate-trace. -/
structure HSt (c : Type) where
  w : Nat → c
  cx : Nat → c
  trims : List (Nat × Int)
  locs : List (Option Nat)

/-- The count `bjnz = pB_end - pB_start` for B's slot `s`. -/
def bjnzOf {β : Type} (B : GBMat β) (s : Nat) : Nat :=
  B.p.getD (s + 1) 0 - B.p.getD s 0

/-- The entry `Bi [pB_end-1]`: the last row id B references in the column of slot `s`. -/
def maxidOf {β : Type} (B : GBMat β) (s : Nat) : Nat :=
  B.i.getD (B.p.getD (s + 1) 0 - 1) 0

/-- One iteration of the column loop of the hypersparse path
(`for_each_vector2 (B, C)` at B's slot `s`): get the ranges, skip if C's
range is empty, clear the workspace, trim the locator window on the right
when `A_is_hyper && bjnz > 2`, run the inner loop, gather.  The window
after the trim step and the locate results are recorded. -/
def hColBody {a b c : Type} [Inhabited a] [Inhabited b] (S : GBSemiring a b c)
    (A : GBMat a) (B : GBMat b) (C : GBMat c) (s : Nat) (st : HSt c) : HSt c :=
  let pB_start := B.p.getD s 0
  let pB_end := B.p.getD (s + 1) 0
  let pc := cRangeFor C (jOf B s)
  if pc.2 == pc.1 then st
  else
    let bjnz := pB_end - pB_start
    let w := clearW S.identity C.i pc.1 pc.2 st.w
    let win : Nat × Int :=
      if A.is_hyper && decide (2 < bjnz) then
        (0, trimRight A.h (B.i.getD (pB_end - 1) 0) ((A.nvec : Int) - 1))
      else (0, (A.nvec : Int) - 1)
    let r := hsaxpy S A B.i B.x pB_start pB_end win.2 ⟨w, win.1, []⟩
    let g := gatherC C.i pc.1 pc.2 r.w st.cx []
    ⟨r.w, g.1, st.trims ++ [win], st.locs ++ r.locs⟩

/-- The column body with the naive full-range locator of C6: no trim, no
window reuse. -/
def hColBodyNaive {a b c : Type} [Inhabited a] [Inhabited b] (S : GBSemiring a b c)
    (A : GBMat a) (B : GBMat b) (C : GBMat c) (s : Nat) (st : HSt c) : HSt c :=
  let pB_start := B.p.getD s 0
  let pB_end := B.p.getD (s + 1) 0
  let pc := cRangeFor C (jOf B s)
  if pc.2 == pc.1 then st
  else
    let w := clearW S.identity C.i pc.1 pc.2 st.w
    let win : Nat × Int := (0, (A.nvec : Int) - 1)
    let r := hsaxpyNaive S A B.i B.x pB_start pB_end ⟨w, win.1, []⟩
    let g := gatherC C.i pc.1 pc.2 r.w st.cx []
    ⟨r.w, g.1, st.trims ++ [win], st.locs ++ r.locs⟩

/-- The hypersparse path of `GB_AxB_Gustavson_nomask`: iterate over every
stored vector of B. -/
def hGustavson {a b c : Type} [Inhabited a] [Inhabited b] (S : GBSemiring a b c)
    (A : GBMat a) (B : GBMat b) (C : GBMat c) (w0 cx0 : Nat → c) : HSt c :=
  (List.range B.nvec).foldl (fun st s => hColBody S A B C s st) ⟨w0, cx0, [], []⟩

/-- The hypersparse kernel with the naive locator of C6. -/
def hGustavsonNaive {a b c : Type} [Inhabited a] [Inhabited b] (S : GBSemiring a b c)
    (A : GBMat a) (B : GBMat b) (C : GBMat c) (w0 cx0 : Nat → c) : HSt c :=
  (List.range B.nvec).foldl (fun st s => hColBodyNaive S A B C s st) ⟨w0, cx0, [], []⟩

/-- The locator window recorded for B's slot `s`: `none` when the column is
skipped, else the `(pleft, pright)` window right after the trim step. -/
def windowOf {a b c : Type} (A : GBMat a) (B : GBMat b) (C : GBMat c) (s : Nat) :
    Option (Nat × Int) :=
  if (cRangeFor C (jOf B s)).2 == (cRangeFor C (jOf B s)).1 then none
  else some (if A.is_hyper && decide (2 < bjnzOf B s) then
      (0, trimRight A.h (maxidOf B s) ((A.nvec : Int) - 1))
    else (0, (A.nvec : Int) - 1))

/-- A's pointer range for column `k` with a full-window lookup (used to state
what the symbolic phase guarantees). -/
def aColRange {α : Type} (A : GBMat α) (k : Nat) : Nat × Nat :=
  if A.is_hyper then
    match locateSlot A.h 0 ((A.nvec : Int) - 1) k with
    | some t => (A.p.getD t 0, A.p.getD (t + 1) 0)
    | none => (0, 0)
  else (A.p.getD k 0, A.p.getD (k + 1) 0)

/-- Modelled from the spec: the symbolic phase that produced C's pattern from
A and B is not under `src/`; its output contract is that every stored
position of C lies in the product structure of A and B: for each stored row
of C's column, some `k` is present in `B(:,j)` whose column `A(:,k)` stores
that row. -/
def PatternFromSymbolic {a b c : Type} (A : GBMat a) (B : GBMat b) (C : GBMat c) : Prop :=
  ∀ s, s < B.nvec → ∀ pC, pC < (cRangeFor C (jOf B s)).2 → (cRangeFor C (jOf B s)).1 ≤ pC →
    ∃ pB, pB < B.p.getD (s + 1) 0 ∧ B.p.getD s 0 ≤ pB ∧
      ∃ pA, pA < (aColRange A (B.i.getD pB 0)).2 ∧ (aColRange A (B.i.getD pB 0)).1 ≤ pA ∧
        A.i.getD pA 0 = C.i.getD pC 0

instance {a b c : Type} (A : GBMat a) (B : GBMat b) (C : GBMat c) :
    Decidable (PatternFromSymbolic A B C) := by
  unfold PatternFromSymbolic
  apply Nat.decidableBallLT

def hexA : GBMat Nat := ⟨1, 6, 2, true, [0, 1, 2], [0, 5], [0, 0], [1, 1], MAGIC⟩

def hexB : GBMat Nat := ⟨6, 1, 1, false, [0, 3], [], [0, 1, 2], [1, 1, 1], MAGIC⟩

def hexC : GBMat Nat := ⟨1, 1, 1, false, [0, 1], [], [0], [7], MAGIC⟩

def exCe : GBMat Nat := ⟨2, 2, 2, false, [0, 0, 1], [], [0], [7], MAGIC⟩

-- Sanity check on the specification's concrete scenario:
-- A = {0:{(0,1)}, 1:{(1,2)}}, B = {0:{(0,1)}, 1:{(0,1),(1,1)}},
-- expected C = {0:{(0,1)}, 1:{(0,1),(1,2)}} under (×,+) with identity 0.
example :
    let S : GBSemiring Nat Nat Nat := ⟨0, (· * ·), (· + ·)⟩
    let A : GBMat Nat := ⟨2, 2, 2, false, [0, 1, 2], [], [0, 1], [1, 2], 1⟩
    let B : GBMat Nat := ⟨2, 2, 2, false, [0, 1, 3], [], [0, 0, 1], [1, 1, 1], 1⟩
    let C : GBMat Nat := ⟨2, 2, 2, false, [0, 1, 3], [], [0, 0, 1], [7, 7, 7], 1⟩
    let st := gustavsonNoMask S A B C (fun _ => 9) (fun _ => 9)
    st.cx 0 = 1 ∧ st.cx 1 = 1 ∧ st.cx 2 = 2 ∧ st.wr = [0, 1, 2] := by
  decide

/-! ### Pointwise characterizations of the kernel's loops -/

theorem foldl_update_add_apply {a c : Type} [Inhabited a] (S : GBSemiring a b c)
    (Ai : List Nat) (Ax : List a) (bkj : b) (q : Nat) (l : List Nat) :
    ∀ w : Nat → c,
      (l.foldl (fun w pA =>
        Function.update w (Ai.getD pA 0)
          (S.add (w (Ai.getD pA 0)) (S.mult (Ax.getD pA default) bkj))) w) q =
      l.foldl (fun acc pA =>
        if Ai.getD pA 0 = q then S.add acc (S.mult (Ax.getD pA default) bkj) else acc) (w q) := by
  induction l with
  | nil => intro w; rfl
  | cons pA t ih =>
    intro w
    simp only [List.foldl_cons]
    rw [ih]
    by_cases hq : Ai.getD pA 0 = q
    · rw [if_pos hq, hq, Function.update_same]
    · rw [if_neg hq, Function.update_noteq (fun h => hq h.symm)]

theorem scatterW_apply {a c : Type} [Inhabited a] (S : GBSemiring a b c)
    (Ai : List Nat) (Ax : List a) (bkj : b) (pAs pAe : Nat) (w : Nat → c) (q : Nat) :
    scatterW S Ai Ax bkj pAs pAe w q =
      (List.range' pAs (pAe - pAs)).foldl (fun acc pA =>
        if Ai.getD pA 0 = q then S.add acc (S.mult (Ax.getD pA default) bkj) else acc) (w q) :=
  foldl_update_add_apply S Ai Ax bkj q _ w

theorem foldl_if_id {a c : Type} [Inhabited a] (S : GBSemiring a b c)
    (Ai : List Nat) (Ax : List a) (bkj : b) (q : Nat) (l : List Nat)
    (h : ∀ p ∈ l, Ai.getD p 0 ≠ q) (acc : c) :
    l.foldl (fun acc pA =>
      if Ai.getD pA 0 = q then S.add acc (S.mult (Ax.getD pA default) bkj) else acc) acc = acc := by
  induction l with
  | nil => rfl
  | cons p t ih =>
    simp only [List.foldl_cons, if_neg (h p (List.mem_cons_self p t))]
    exact ih (fun x hx => h x (List.mem_cons_of_mem p hx))

theorem foldl_if_find? {a c : Type} [Inhabited a] (S : GBSemiring a b c)
    (Ai : List Nat) (Ax : List a) (bkj : b) (q : Nat) (l : List Nat)
    (hl : l.Pairwise (fun p1 p2 => Ai.getD p1 0 ≠ Ai.getD p2 0)) (acc : c) :
    l.foldl (fun acc pA =>
      if Ai.getD pA 0 = q then S.add acc (S.mult (Ax.getD pA default) bkj) else acc) acc =
    match l.find? (fun p => Ai.getD p 0 == q) with
    | some pA => S.add acc (S.mult (Ax.getD pA default) bkj)
    | none => acc := by
  induction l generalizing acc with
  | nil => rfl
  | cons p t ih =>
    rcases List.pairwise_cons.mp hl with ⟨hp, ht⟩
    by_cases hq : Ai.getD p 0 = q
    · have hbeq : (Ai.getD p 0 == q) = true := beq_iff_eq.mpr hq
      simp only [List.foldl_cons, List.find?_cons, hbeq, if_pos hq, cond_true]
      exact foldl_if_id S Ai Ax bkj q t (fun x hx he => hp x hx (by rw [hq, he])) _
    · have hbeq : (Ai.getD p 0 == q) = false := beq_eq_false_iff_ne.mpr hq
      simp only [List.foldl_cons, List.find?_cons, hbeq, if_neg hq, cond_false]
      exact ih ht acc

theorem clearW_apply {c : Type} (idv : c) (Ci : List Nat) (pCs pCe : Nat) (w : Nat → c)
    (q : Nat) :
    clearW idv Ci pCs pCe w q =
      if q ∈ (List.range' pCs (pCe - pCs)).map (fun pC => Ci.getD pC 0) then idv else w q := by
  unfold clearW
  generalize (List.range' pCs (pCe - pCs)) = l
  induction l generalizing w with
  | nil => simp
  | cons pC t ih =>
    simp only [List.foldl_cons, List.map_cons, List.mem_cons]
    rw [ih]
    by_cases hmem : q ∈ t.map (fun pC => Ci.getD pC 0)
    · rw [if_pos hmem, if_pos (Or.inr hmem)]
    · by_cases hq : q = Ci.getD pC 0
      · rw [if_neg hmem, if_pos (Or.inl hq), hq, Function.update_same]
      · rw [if_neg hmem, if_neg (fun h => h.elim hq hmem), Function.update_noteq hq]

theorem gatherC_fst {c : Type} (Ci : List Nat) (pCs pCe : Nat) (w cx : Nat → c)
    (wr : List Nat) (t : Nat) :
    (gatherC Ci pCs pCe w cx wr).1 t =
      if pCs ≤ t ∧ t < pCe then w (Ci.getD t 0) else cx t := by
  have aux : ∀ (l : List Nat) (cx : Nat → c) (wr : List Nat),
      (l.foldl (fun st pC => (Function.update st.1 pC (w (Ci.getD pC 0)), st.2 ++ [pC]))
        ((cx, wr) : (Nat → c) × List Nat)).1 t =
      if t ∈ l then w (Ci.getD t 0) else cx t := by
    intro l
    induction l with
    | nil => intro cx wr; simp
    | cons pC tl ih =>
      intro cx wr
      simp only [List.foldl_cons, List.mem_cons]
      rw [ih]
      by_cases hmem : t ∈ tl
      · simp [hmem]
      · by_cases hq : t = pC
        · subst hq; simp [hmem, Function.update_same]
        · simp [hmem, hq, Function.update_noteq hq]
  unfold gatherC
  rw [aux]
  have : t ∈ List.range' pCs (pCe - pCs) ↔ (pCs ≤ t ∧ t < pCe) := by
    rw [List.mem_range'_1]; omega
  by_cases h : pCs ≤ t ∧ t < pCe
  · rw [if_pos (this.mpr h), if_pos h]
  · rw [if_neg (fun hm => h (this.mp hm)), if_neg h]

theorem gatherC_snd {c : Type} (Ci : List Nat) (pCs pCe : Nat) (w cx : Nat → c)
    (wr : List Nat) :
    (gatherC Ci pCs pCe w cx wr).2 = wr ++ List.range' pCs (pCe - pCs) := by
  have aux : ∀ (l : List Nat) (cx : Nat → c) (wr : List Nat),
      (l.foldl (fun st pC => (Function.update st.1 pC (w (Ci.getD pC 0)), st.2 ++ [pC]))
        ((cx, wr) : (Nat → c) × List Nat)).2 = wr ++ l := by
    intro l
    induction l with
    | nil => intro cx wr; simp
    | cons pC tl ih => intro cx wr; simp only [List.foldl_cons]; rw [ih]; simp
  exact aux _ cx wr

theorem ColStrictIncr.lt_of_lt {Mi : List Nat} {ps pe : Nat} (h : ColStrictIncr Mi ps pe) :
    ∀ q1 q2, ps ≤ q1 → q1 < q2 → q2 < pe → Mi.getD q1 0 < Mi.getD q2 0 := by
  intro q1 q2 h1 h12 h2
  induction q2 with
  | zero => omega
  | succ n ih =>
    rcases Nat.lt_succ_iff_lt_or_eq.mp h12 with hlt | heq
    · exact Nat.lt_trans (ih hlt (by omega)) (h n (by omega) (by omega))
    · subst heq; exact h q1 h1 h2

theorem pairwise_vals_range' {Mi : List Nat} {ps pe : Nat} (h : ColStrictIncr Mi ps pe) :
    (List.range' ps (pe - ps)).Pairwise (fun p1 p2 => Mi.getD p1 0 < Mi.getD p2 0) := by
  refine List.Pairwise.imp_of_mem ?_ (List.pairwise_lt_range' ps (pe - ps) 1 (by omega))
  intro p1 p2 h1 h2 hlt
  rw [List.mem_range'_1] at h1 h2
  exact h.lt_of_lt p1 p2 h1.1 hlt (by omega)

theorem find?_eq_some_of_split {α : Type} (f : α → Bool) :
    ∀ (l1 : List α) (x : α) (l2 : List α), (∀ y ∈ l1, f y = false) → f x = true →
      (l1 ++ x :: l2).find? f = some x := by
  intro l1
  induction l1 with
  | nil => intro x l2 _ hx; simp [List.find?_cons, hx]
  | cons y t ih =>
    intro x l2 hy hx
    have : f y = false := hy y (List.mem_cons_self y t)
    simp only [List.cons_append, List.find?_cons, this, cond_false]
    exact ih x l2 (fun z hz => hy z (List.mem_cons_of_mem y hz)) hx

theorem range'_split_at (ps pe pB : Nat) (h1 : ps ≤ pB) (h2 : pB < pe) :
    List.range' ps (pe - ps) = List.range' ps (pB - ps) ++ pB :: List.range' (pB + 1) (pe - pB - 1) := by
  have e1 : List.range' ps (pB - ps) ++ List.range' (ps + 1 * (pB - ps)) (pe - pB) =
      List.range' ps (pe - pB + (pB - ps)) := List.range'_append ps (pB - ps) (pe - pB) 1
  have e2 : ps + 1 * (pB - ps) = pB := by omega
  have e3 : pe - pB + (pB - ps) = pe - ps := by omega
  have e4 : List.range' pB (pe - pB) = pB :: List.range' (pB + 1) (pe - pB - 1) := by
    obtain ⟨m, hm⟩ : ∃ m, pe - pB = m + 1 := ⟨pe - pB - 1, by omega⟩
    rw [hm, List.range'_succ]
    simp
  rw [e2, e3, e4] at e1
  exact e1.symm

theorem findPos_eq_some_self {Mi : List Nat} {ps pe pB : Nat} (h : ColStrictIncr Mi ps pe)
    (h1 : ps ≤ pB) (h2 : pB < pe) : findPos Mi ps pe (Mi.getD pB 0) = some pB := by
  unfold findPos
  rw [range'_split_at ps pe pB h1 h2]
  refine find?_eq_some_of_split _ _ pB _ ?_ (beq_self_eq_true _)
  intro y hy
  rw [List.mem_range'_1] at hy
  exact beq_eq_false_iff_ne.mpr (Nat.ne_of_lt (h.lt_of_lt y pB hy.1 (by omega) h2))

theorem findPos_eq_none {Mi : List Nat} {ps pe r : Nat}
    (h : ∀ pB, ps ≤ pB → pB < pe → Mi.getD pB 0 ≠ r) : findPos Mi ps pe r = none := by
  refine List.find?_eq_none.mpr ?_
  intro x hx
  rw [List.mem_range'_1] at hx
  exact beq_eq_false_iff_ne.mpr (h x hx.1 (by omega)) ▸ Bool.false_ne_true

theorem findPos_empty {Mi : List Nat} {ps pe r : Nat} (h : pe ≤ ps) :
    findPos Mi ps pe r = none := by
  unfold findPos
  have : pe - ps = 0 := by omega
  rw [this]
  rfl

theorem findPos_some_spec {Mi : List Nat} {ps pe r pA : Nat}
    (h : findPos Mi ps pe r = some pA) : ps ≤ pA ∧ pA < pe ∧ Mi.getD pA 0 = r := by
  have hmem := List.mem_of_find?_eq_some h
  have hp := List.find?_some h
  rw [List.mem_range'_1] at hmem
  exact ⟨hmem.1, by omega, beq_iff_eq.mp hp⟩

theorem saxpyCol_apply {a b c : Type} [Inhabited a] [Inhabited b] (S : GBSemiring a b c)
    (A : GBMat a) (Bi : List Nat) (Bx : List b) (pBs pBe : Nat) (w : Nat → c) (q : Nat)
    (hA : ∀ pB, pBs ≤ pB → pB < pBe →
      ColStrictIncr A.i (A.p.getD (Bi.getD pB 0) 0) (A.p.getD (Bi.getD pB 0 + 1) 0)) :
    saxpyCol S A Bi Bx pBs pBe w q =
      (List.range' pBs (pBe - pBs)).foldl
        (fun acc pB =>
          match findPos A.i (A.p.getD (Bi.getD pB 0) 0) (A.p.getD (Bi.getD pB 0 + 1) 0) q with
          | some pA => S.add acc (S.mult (A.x.getD pA default) (Bx.getD pB default))
          | none => acc) (w q) := by
  unfold saxpyCol
  have hmem : ∀ pB ∈ List.range' pBs (pBe - pBs),
      ColStrictIncr A.i (A.p.getD (Bi.getD pB 0) 0) (A.p.getD (Bi.getD pB 0 + 1) 0) := by
    intro pB hpB
    rw [List.mem_range'_1] at hpB
    exact hA pB hpB.1 (by omega)
  generalize List.range' pBs (pBe - pBs) = l at hmem ⊢
  induction l generalizing w with
  | nil => rfl
  | cons pB t ih =>
    simp only [List.foldl_cons]
    by_cases hcase : A.p.getD (Bi.getD pB 0) 0 = A.p.getD (Bi.getD pB 0 + 1) 0
    · have hbeq : (A.p.getD (Bi.getD pB 0) 0 == A.p.getD (Bi.getD pB 0 + 1) 0) = true :=
        beq_iff_eq.mpr hcase
      rw [findPos_empty (Nat.le_of_eq hcase.symm)]
      simp only [hbeq, if_true]
      exact ih w (fun x hx => hmem x (List.mem_cons_of_mem pB hx))
    · have hbeq : (A.p.getD (Bi.getD pB 0) 0 == A.p.getD (Bi.getD pB 0 + 1) 0) = false :=
        beq_eq_false_iff_ne.mpr hcase
      simp only [hbeq, if_false]
      rw [ih _ (fun x hx => hmem x (List.mem_cons_of_mem pB hx))]
      congr 1
      rw [if_neg Bool.false_ne_true, scatterW_apply]
      rw [foldl_if_find? S A.i A.x (Bx.getD pB default) q _
        ((pairwise_vals_range' (hmem pB (List.mem_cons_self pB t))).imp Nat.ne_of_lt) (w q)]
      rfl

theorem foldl_congr_mem {α β : Type} {l : List α} {g1 g2 : β → α → β}
    (h : ∀ acc x, x ∈ l → g1 acc x = g2 acc x) : ∀ init, l.foldl g1 init = l.foldl g2 init := by
  induction l with
  | nil => intro init; rfl
  | cons x t ih =>
    intro init
    simp only [List.foldl_cons]
    rw [h init x (List.mem_cons_self x t)]
    exact ih (fun acc y hy => h acc y (List.mem_cons_of_mem x hy)) _

theorem foldl_eq_of_sublist {α β : Type} (g : β → α → β) {l L : List α} (hsub : l.Sublist L) :
    L.Nodup → (∀ acc x, x ∈ L → x ∉ l → g acc x = acc) →
      ∀ init, L.foldl g init = l.foldl g init := by
  induction hsub with
  | slnil => intro _ _ init; rfl
  | @cons l L a hsub ih =>
    intro hN hid init
    have ha : a ∉ l := fun hal => (List.nodup_cons.mp hN).1 (hsub.subset hal)
    simp only [List.foldl_cons]
    rw [hid init a (List.mem_cons_self a L) ha]
    exact ih (List.nodup_cons.mp hN).2
      (fun acc x hx hnx => hid acc x (List.mem_cons_of_mem a hx) hnx) init
  | @cons₂ l L a hsub ih =>
    intro hN hid init
    simp only [List.foldl_cons]
    refine ih (List.nodup_cons.mp hN).2
      (fun acc x hx hxl => hid acc x (List.mem_cons_of_mem a hx) ?_) (g init a)
    intro hmem
    rcases List.mem_cons.mp hmem with h1 | h2
    · exact (List.nodup_cons.mp hN).1 (h1 ▸ hx)
    · exact hxl h2

theorem pairwise_lt_sublist_range' :
    ∀ (l : List Nat), l.Pairwise (· < ·) → ∀ m n, (∀ x ∈ l, m ≤ x ∧ x < m + n) →
      l.Sublist (List.range' m n) := by
  intro l
  induction l with
  | nil => intro _ m n _; exact List.nil_sublist _
  | cons x t ih =>
    intro hp m n hb
    obtain ⟨hx1, hx2⟩ := hb x (List.mem_cons_self x t)
    have hsplit : List.range' m n =
        List.range' m (x - m) ++ x :: List.range' (x + 1) (n - (x - m) - 1) := by
      have h := range'_split_at m (m + n) x hx1 hx2
      rw [show m + n - m = n by omega, show m + n - x - 1 = n - (x - m) - 1 by omega] at h
      exact h
    rw [hsplit]
    have ht : t.Sublist (List.range' (x + 1) (n - (x - m) - 1)) := by
      refine ih (List.pairwise_cons.mp hp).2 (x + 1) (n - (x - m) - 1) ?_
      intro y hy
      have h1 : x < y := (List.pairwise_cons.mp hp).1 y hy
      have h2 := (hb y (List.mem_cons_of_mem x hy)).2
      omega
    exact ((ht.cons₂ x).trans (List.sublist_append_right _ _))

theorem MonotoneP.le_of_le {P : List Nat} {n : Nat} (h : MonotoneP P n) :
    ∀ u v, u ≤ v → v ≤ n → P.getD u 0 ≤ P.getD v 0 := by
  intro u v
  induction v with
  | zero => intro huv _; rw [Nat.le_zero.mp huv]
  | succ m ih =>
    intro huv hvn
    by_cases heq : u = m + 1
    · rw [heq]
    · exact Nat.le_trans (ih (by omega) (by omega)) (h m (by omega))

theorem foldl_pB_eq_foldl_k {a b c : Type} [Inhabited a] [Inhabited b] (S : GBSemiring a b c)
    (A : GBMat a) (Bi : List Nat) (Bx : List b) (pBs pBe vlen q : Nat) (init : c)
    (hBi : ColStrictIncr Bi pBs pBe)
    (hBb : ∀ pB, pBs ≤ pB → pB < pBe → Bi.getD pB 0 < vlen) :
    (List.range vlen).foldl
      (fun acc k =>
        match findPos Bi pBs pBe k, findPos A.i (A.p.getD k 0) (A.p.getD (k + 1) 0) q with
        | some pB, some pA => S.add acc (S.mult (A.x.getD pA default) (Bx.getD pB default))
        | _, _ => acc) init =
    (List.range' pBs (pBe - pBs)).foldl
      (fun acc pB =>
        match findPos A.i (A.p.getD (Bi.getD pB 0) 0) (A.p.getD (Bi.getD pB 0 + 1) 0) q with
        | some pA => S.add acc (S.mult (A.x.getD pA default) (Bx.getD pB default))
        | none => acc) init := by
  have hpair : ((List.range' pBs (pBe - pBs)).map (fun pB => Bi.getD pB 0)).Pairwise (· < ·) := by
    rw [List.pairwise_map]
    exact pairwise_vals_range' hBi
  have hbound : ∀ x ∈ (List.range' pBs (pBe - pBs)).map (fun pB => Bi.getD pB 0),
      0 ≤ x ∧ x < 0 + vlen := by
    intro x hx
    rw [List.mem_map] at hx
    obtain ⟨pB, hpB, rfl⟩ := hx
    rw [List.mem_range'_1] at hpB
    exact ⟨Nat.zero_le _, by simpa using hBb pB hpB.1 (by omega)⟩
  have hsub : ((List.range' pBs (pBe - pBs)).map (fun pB => Bi.getD pB 0)).Sublist
      (List.range vlen) := by
    rw [List.range_eq_range']
    exact pairwise_lt_sublist_range' _ hpair 0 vlen hbound
  have hid : ∀ (acc : c) x, x ∈ List.range vlen →
      x ∉ (List.range' pBs (pBe - pBs)).map (fun pB => Bi.getD pB 0) →
      (match findPos Bi pBs pBe x, findPos A.i (A.p.getD x 0) (A.p.getD (x + 1) 0) q with
        | some pB, some pA => S.add acc (S.mult (A.x.getD pA default) (Bx.getD pB default))
        | _, _ => acc) = acc := by
    intro acc x _ hx
    have hnone : findPos Bi pBs pBe x = none := by
      refine findPos_eq_none ?_
      intro pB h1 h2 heq
      exact hx (List.mem_map.mpr ⟨pB, List.mem_range'_1.mpr ⟨h1, by omega⟩, heq⟩)
    rw [hnone]
  rw [foldl_eq_of_sublist _ hsub (List.nodup_range vlen) hid init]
  rw [List.foldl_map]
  refine foldl_congr_mem ?_ init
  intro acc pB hpB
  rw [List.mem_range'_1] at hpB
  rw [findPos_eq_some_self hBi hpB.1 (by omega)]
  cases findPos A.i (A.p.getD (Bi.getD pB 0) 0) (A.p.getD (Bi.getD pB 0 + 1) 0) q <;> rfl

theorem gustavsonCol_cx_in {a b c : Type} [Inhabited a] [Inhabited b] (S : GBSemiring a b c)
    (A : GBMat a) (B : GBMat b) (C : GBMat c) (j : Nat) (st : KSt c) (pC : Nat)
    (hpc1 : C.p.getD j 0 ≤ pC) (hpc2 : pC < C.p.getD (j + 1) 0)
    (hA : ∀ pB, B.p.getD j 0 ≤ pB → pB < B.p.getD (j + 1) 0 →
      ColStrictIncr A.i (A.p.getD (B.i.getD pB 0) 0) (A.p.getD (B.i.getD pB 0 + 1) 0))
    (hBi : ColStrictIncr B.i (B.p.getD j 0) (B.p.getD (j + 1) 0))
    (hBb : ∀ pB, B.p.getD j 0 ≤ pB → pB < B.p.getD (j + 1) 0 → B.i.getD pB 0 < B.vlen) :
    (gustavsonCol S A B C j st).cx pC = specContrib S A B j (C.i.getD pC 0) := by
  unfold gustavsonCol
  have hne : (C.p.getD (j + 1) 0 == C.p.getD j 0) = false :=
    beq_eq_false_iff_ne.mpr (by omega)
  simp only [hne]
  rw [if_neg Bool.false_ne_true]
  dsimp only
  rw [gatherC_fst, if_pos ⟨hpc1, hpc2⟩]
  rw [saxpyCol_apply S A B.i B.x _ _ _ _ hA]
  rw [clearW_apply, if_pos]
  · rw [specContrib]
    exact (foldl_pB_eq_foldl_k S A B.i B.x _ _ B.vlen _ S.identity hBi hBb).symm
  · exact List.mem_map.mpr ⟨pC, List.mem_range'_1.mpr ⟨hpc1, by omega⟩, rfl⟩

theorem gustavsonCol_cx_frame {a b c : Type} [Inhabited a] [Inhabited b] (S : GBSemiring a b c)
    (A : GBMat a) (B : GBMat b) (C : GBMat c) (j : Nat) (st : KSt c) (pC : Nat)
    (h : ¬(C.p.getD j 0 ≤ pC ∧ pC < C.p.getD (j + 1) 0)) :
    (gustavsonCol S A B C j st).cx pC = st.cx pC := by
  unfold gustavsonCol
  by_cases hg : C.p.getD (j + 1) 0 = C.p.getD j 0
  · simp only [hg, beq_self_eq_true, if_true]
  · simp only [beq_eq_false_iff_ne.mpr hg]
    rw [if_neg Bool.false_ne_true]
    dsimp only
    rw [gatherC_fst, if_neg h]

theorem gustavsonCol_wr {a b c : Type} [Inhabited a] [Inhabited b] (S : GBSemiring a b c)
    (A : GBMat a) (B : GBMat b) (C : GBMat c) (j : Nat) (st : KSt c) :
    (gustavsonCol S A B C j st).wr =
      st.wr ++ List.range' (C.p.getD j 0) (C.p.getD (j + 1) 0 - C.p.getD j 0) := by
  unfold gustavsonCol
  by_cases hg : C.p.getD (j + 1) 0 = C.p.getD j 0
  · simp only [hg, beq_self_eq_true, if_true, Nat.sub_self]
    simp
  · simp only [beq_eq_false_iff_ne.mpr hg]
    rw [if_neg Bool.false_ne_true]
    dsimp only
    exact gatherC_snd C.i _ _ _ st.cx st.wr

theorem foldl_cols_cx_frame {a b c : Type} [Inhabited a] [Inhabited b] (S : GBSemiring a b c)
    (A : GBMat a) (B : GBMat b) (C : GBMat c) (l : List Nat) (pC : Nat)
    (hl : ∀ j ∈ l, ¬(C.p.getD j 0 ≤ pC ∧ pC < C.p.getD (j + 1) 0)) :
    ∀ st : KSt c, ((l.foldl (fun st j => gustavsonCol S A B C j st) st).cx) pC = st.cx pC := by
  induction l with
  | nil => intro st; rfl
  | cons j t ih =>
    intro st
    simp only [List.foldl_cons]
    rw [ih (fun x hx => hl x (List.mem_cons_of_mem j hx))]
    exact gustavsonCol_cx_frame S A B C j st pC (hl j (List.mem_cons_self j t))

theorem gustavson_cx_at {a b c : Type} [Inhabited a] [Inhabited b] (S : GBSemiring a b c)
    (A : GBMat a) (B : GBMat b) (C : GBMat c) (w0 cx0 : Nat → c) (j pC : Nat)
    (hj : j < C.vdim)
    (hpc1 : C.p.getD j 0 ≤ pC) (hpc2 : pC < C.p.getD (j + 1) 0)
    (hmono : ∀ u v, u ≤ v → v ≤ C.vdim → C.p.getD u 0 ≤ C.p.getD v 0)
    (hA : ∀ pB, B.p.getD j 0 ≤ pB → pB < B.p.getD (j + 1) 0 →
      ColStrictIncr A.i (A.p.getD (B.i.getD pB 0) 0) (A.p.getD (B.i.getD pB 0 + 1) 0))
    (hBi : ColStrictIncr B.i (B.p.getD j 0) (B.p.getD (j + 1) 0))
    (hBb : ∀ pB, B.p.getD j 0 ≤ pB → pB < B.p.getD (j + 1) 0 → B.i.getD pB 0 < B.vlen) :
    (gustavsonNoMask S A B C w0 cx0).cx pC = specContrib S A B j (C.i.getD pC 0) := by
  unfold gustavsonNoMask
  rw [List.range_eq_range']
  have hsplit := range'_split_at 0 C.vdim j (Nat.zero_le j) hj
  rw [Nat.sub_zero] at hsplit
  rw [hsplit, List.foldl_append, List.foldl_cons]
  rw [foldl_cols_cx_frame S A B C _ pC ?hfr]
  case hfr =>
    intro j' hj'
    rw [List.mem_range'_1] at hj'
    intro hcc
    have : C.p.getD (j + 1) 0 ≤ C.p.getD j' 0 := hmono (j + 1) j' (by omega) (by omega)
    omega
  exact gustavsonCol_cx_in S A B C j _ pC hpc1 hpc2 hA hBi hBb

theorem WFMat.colStrict_any {α : Type} {A : GBMat α} (hW : WFMat A) :
    ∀ k, ColStrictIncr A.i (A.p.getD k 0) (A.p.getD (k + 1) 0) := by
  obtain ⟨h1, _h2, _h3, _h4, _h5, h6, _h7, _h8⟩ := hW
  intro k
  by_cases hk : k < A.nvec
  · exact h6 k hk
  · intro q _hq hq1
    exfalso
    have hlen : A.p.length ≤ k + 1 := by omega
    rw [List.getD_eq_default _ _ hlen] at hq1
    omega

example : WFMat exA ∧ WFMat exB ∧ WFMat exC ∧ PatternSuperset exA exB exC := by decide

/-- C1: for every well-formed pair of matrices A and B, every semiring, and
every finalized C pattern that is a (possibly strict) superset of the true
nonzero structure of `A*B`, after SpGEMM-Accumulate returns, each stored
position of C (position `pC` of column `j`) holds the semiring sum,
accumulated from the identity in ascending `k` order, of
`multiply (A(i,k), B(k,j))` over all `k` with both entries present
(`specContrib`); in particular a stored position with no contributing `k`
holds exactly the identity element. -/
theorem C1_spgemm_overapprox_correct {a b c : Type} [Inhabited a] [Inhabited b]
    (S : GBSemiring a b c) (A : GBMat a) (B : GBMat b) (C : GBMat c) (w0 cx0 : Nat → c)
    (j pC : Nat)
    (hWA : WFMat A) (hWB : WFMat B) (hWC : WFMat C)
    (hAh : A.is_hyper = false) (hBh : B.is_hyper = false) (hCh : C.is_hyper = false)
    (hd1 : C.vdim = B.vdim) (hd2 : C.vlen = A.vlen) (hd3 : A.vdim = B.vlen)
    (hd4 : C.nvec ≤ B.nvec) (hCm : C.magic = MAGIC)
    (hsup : PatternSuperset A B C)
    (hj : j < C.vdim) (hpc1 : C.p.getD j 0 ≤ pC) (hpc2 : pC < C.p.getD (j + 1) 0) :
    (gustavsonNoMask S A B C w0 cx0).cx pC = specContrib S A B j (C.i.getD pC 0) := by
  obtain ⟨hC1, hC2, hC3, hC4, hC5, hC6, hC7, hC8⟩ := hWC
  rw [hCh] at hC8
  rw [if_neg Bool.false_ne_true] at hC8
  obtain ⟨hB1, hB2, hB3, hB4, hB5, hB6, hB7, hB8⟩ := hWB
  rw [hBh] at hB8
  rw [if_neg Bool.false_ne_true] at hB8
  have hjB : j < B.nvec := by omega
  refine gustavson_cx_at S A B C w0 cx0 j pC hj hpc1 hpc2 ?_ ?_ ?_ ?_
  · intro u v huv hvn
    exact hC3.le_of_le u v huv (by omega)
  · intro pB _h1 _h2
    exact hWA.colStrict_any (B.i.getD pB 0)
  · exact hB6 j hjB
  · intro pB h1 h2
    have hle : B.p.getD (j + 1) 0 ≤ B.p.getD B.nvec 0 :=
      hB3.le_of_le (j + 1) B.nvec (by omega) (by omega)
    exact hB7 pB (by omega)

/-- Witness for C1 on the specification's concrete scenario: position 2 of C
(row 1 of column 1) must hold 1*1 + 2*1 = 2. -/
theorem C1_spgemm_overapprox_correct_witness :
    (gustavsonNoMask exS exA exB exC (fun _ => 9) (fun _ => 9)).cx 2 =
      specContrib exS exA exB 1 (exC.i.getD 2 0) :=
  C1_spgemm_overapprox_correct exS exA exB exC (fun _ => 9) (fun _ => 9) 1 2
    (by decide) (by decide) (by decide) (by decide) (by decide) (by decide)
    (by decide) (by decide) (by decide) (by decide) (by decide) (by decide)
    (by decide) (by decide) (by decide)

theorem foldl_cols_wr_join {a b c : Type} [Inhabited a] [Inhabited b] (S : GBSemiring a b c)
    (A : GBMat a) (B : GBMat b) (C : GBMat c) (hmono : MonotoneP C.p C.vdim) :
    ∀ (m j0 : Nat), j0 + m ≤ C.vdim → ∀ st : KSt c,
      ((List.range' j0 m).foldl (fun st j => gustavsonCol S A B C j st) st).wr =
        st.wr ++ List.range' (C.p.getD j0 0) (C.p.getD (j0 + m) 0 - C.p.getD j0 0) := by
  intro m
  induction m with
  | zero =>
    intro j0 _ st
    simp
  | succ mm ih =>
    intro j0 hle st
    rw [List.range'_succ, List.foldl_cons]
    rw [ih (j0 + 1) (by omega) _]
    rw [gustavsonCol_wr]
    rw [List.append_assoc]
    congr 1
    have h1 : C.p.getD j0 0 ≤ C.p.getD (j0 + 1) 0 :=
      hmono.le_of_le j0 (j0 + 1) (by omega) (by omega)
    have h2 : C.p.getD (j0 + 1) 0 ≤ C.p.getD (j0 + 1 + mm) 0 :=
      hmono.le_of_le (j0 + 1) (j0 + 1 + mm) (by omega) (by omega)
    have happ := List.range'_append (C.p.getD j0 0) (C.p.getD (j0 + 1) 0 - C.p.getD j0 0)
      (C.p.getD (j0 + 1 + mm) 0 - C.p.getD (j0 + 1) 0) 1
    rw [show C.p.getD j0 0 + 1 * (C.p.getD (j0 + 1) 0 - C.p.getD j0 0) = C.p.getD (j0 + 1) 0
      by omega] at happ
    rw [show C.p.getD (j0 + 1 + mm) 0 - C.p.getD (j0 + 1) 0 +
        (C.p.getD (j0 + 1) 0 - C.p.getD j0 0) = C.p.getD (j0 + 1 + mm) 0 - C.p.getD j0 0
      by omega] at happ
    rw [show j0 + (mm + 1) = j0 + 1 + mm by omega]
    exact happ

/-- C2: the kernel writes only C's value array and the workspace: C's pattern
(`p`, `h`, `i`, `nvec`) and dimensions are unchanged on return, and the trace
of value-array writes is exactly `[Cp 0, Cp vdim)` in order: each stored value
position is written exactly once, in increasing position order. -/
theorem C2_frame_and_write_once {a b c : Type} [Inhabited a] [Inhabited b] [Inhabited c]
    (S : GBSemiring a b c) (A : GBMat a) (B : GBMat b) (C : GBMat c) (w0 : Nat → c)
    (hWC : WFMat C) (hCh : C.is_hyper = false) :
    (GB_AxB_Gustavson_nomask S A B C w0).1.p = C.p ∧
    (GB_AxB_Gustavson_nomask S A B C w0).1.h = C.h ∧
    (GB_AxB_Gustavson_nomask S A B C w0).1.i = C.i ∧
    (GB_AxB_Gustavson_nomask S A B C w0).1.nvec = C.nvec ∧
    (GB_AxB_Gustavson_nomask S A B C w0).1.vlen = C.vlen ∧
    (GB_AxB_Gustavson_nomask S A B C w0).1.vdim = C.vdim ∧
    (GB_AxB_Gustavson_nomask S A B C w0).2 = List.range' 0 (C.p.getD C.vdim 0) ∧
    (GB_AxB_Gustavson_nomask S A B C w0).2.Chain' (· < ·) ∧
    (∀ pos, pos < C.p.getD C.vdim 0 → (GB_AxB_Gustavson_nomask S A B C w0).2.count pos = 1) := by
  obtain ⟨hC1, hC2, hC3, hC4, hC5, hC6, hC7, hC8⟩ := hWC
  rw [hCh] at hC8
  rw [if_neg Bool.false_ne_true] at hC8
  have hwr : (GB_AxB_Gustavson_nomask S A B C w0).2 = List.range' 0 (C.p.getD C.vdim 0) := by
    show (gustavsonNoMask S A B C w0 _).wr = _
    unfold gustavsonNoMask
    rw [List.range_eq_range']
    have hmono : MonotoneP C.p C.vdim := by
      intro v hv
      exact hC3 v (by omega)
    rw [foldl_cols_wr_join S A B C hmono C.vdim 0 (by omega)]
    rw [hC2]
    simp
  refine ⟨rfl, rfl, rfl, rfl, rfl, rfl, hwr, ?_, ?_⟩
  · rw [hwr]
    exact (List.pairwise_lt_range' 0 (C.p.getD C.vdim 0) 1 (by omega)).chain'
  · intro pos hpos
    rw [hwr]
    exact List.count_eq_one_of_mem (List.nodup_range' _ _)
      (List.mem_range'_1.mpr ⟨Nat.zero_le _, by omega⟩)

/-- Witness for C2 on the concrete scenario. -/
theorem C2_frame_and_write_once_witness :
    (GB_AxB_Gustavson_nomask exS exA exB exC (fun _ => 9)).1.p = exC.p ∧
    (GB_AxB_Gustavson_nomask exS exA exB exC (fun _ => 9)).1.h = exC.h ∧
    (GB_AxB_Gustavson_nomask exS exA exB exC (fun _ => 9)).1.i = exC.i ∧
    (GB_AxB_Gustavson_nomask exS exA exB exC (fun _ => 9)).1.nvec = exC.nvec ∧
    (GB_AxB_Gustavson_nomask exS exA exB exC (fun _ => 9)).1.vlen = exC.vlen ∧
    (GB_AxB_Gustavson_nomask exS exA exB exC (fun _ => 9)).1.vdim = exC.vdim ∧
    (GB_AxB_Gustavson_nomask exS exA exB exC (fun _ => 9)).2 =
      List.range' 0 (exC.p.getD exC.vdim 0) ∧
    (GB_AxB_Gustavson_nomask exS exA exB exC (fun _ => 9)).2.Chain' (· < ·) ∧
    (∀ pos, pos < exC.p.getD exC.vdim 0 →
      (GB_AxB_Gustavson_nomask exS exA exB exC (fun _ => 9)).2.count pos = 1) :=
  C2_frame_and_write_once exS exA exB exC (fun _ => 9) (by decide) (by decide)

theorem scatterW_congr {a c : Type} [Inhabited a] (S : GBSemiring a b c) (Ai : List Nat)
    (Ax : List a) (bkj : b) (pAs pAe : Nat) {w1 w2 : Nat → c} (q : Nat) (h : w1 q = w2 q) :
    scatterW S Ai Ax bkj pAs pAe w1 q = scatterW S Ai Ax bkj pAs pAe w2 q := by
  rw [scatterW_apply, scatterW_apply, h]

theorem saxpyCol_congr {a b c : Type} [Inhabited a] [Inhabited b] (S : GBSemiring a b c)
    (A : GBMat a) (Bi : List Nat) (Bx : List b) (pBs pBe : Nat) {w1 w2 : Nat → c} (q : Nat)
    (h : w1 q = w2 q) :
    saxpyCol S A Bi Bx pBs pBe w1 q = saxpyCol S A Bi Bx pBs pBe w2 q := by
  unfold saxpyCol
  generalize List.range' pBs (pBe - pBs) = l
  induction l generalizing w1 w2 with
  | nil => exact h
  | cons pB t ih =>
    simp only [List.foldl_cons]
    by_cases hc : A.p.getD (Bi.getD pB 0) 0 = A.p.getD (Bi.getD pB 0 + 1) 0
    · simp only [beq_iff_eq.mpr hc, if_true]
      exact ih h
    · simp only [beq_eq_false_iff_ne.mpr hc]
      rw [if_neg Bool.false_ne_true, if_neg Bool.false_ne_true]
      exact ih (scatterW_congr S A.i A.x (Bx.getD pB default) _ _ q h)

theorem gustavsonCol_congr {a b c : Type} [Inhabited a] [Inhabited b] (S : GBSemiring a b c)
    (A : GBMat a) (B : GBMat b) (C : GBMat c) (j : Nat) (st1 st2 : KSt c)
    (hcx : st1.cx = st2.cx) (hwr : st1.wr = st2.wr) :
    (gustavsonCol S A B C j st1).cx = (gustavsonCol S A B C j st2).cx ∧
    (gustavsonCol S A B C j st1).wr = (gustavsonCol S A B C j st2).wr := by
  unfold gustavsonCol
  by_cases hg : C.p.getD (j + 1) 0 = C.p.getD j 0
  · simp only [beq_iff_eq.mpr hg, if_true]
    exact ⟨hcx, hwr⟩
  · simp only [beq_eq_false_iff_ne.mpr hg]
    rw [if_neg Bool.false_ne_true, if_neg Bool.false_ne_true]
    dsimp only
    constructor
    · funext t
      rw [gatherC_fst, gatherC_fst]
      by_cases hin : C.p.getD j 0 ≤ t ∧ t < C.p.getD (j + 1) 0
      · rw [if_pos hin, if_pos hin]
        refine saxpyCol_congr S A B.i B.x _ _ _ ?_
        rw [clearW_apply, clearW_apply]
        have hmem : C.i.getD t 0 ∈
            (List.range' (C.p.getD j 0) (C.p.getD (j + 1) 0 - C.p.getD j 0)).map
              (fun pC => C.i.getD pC 0) :=
          List.mem_map.mpr ⟨t, List.mem_range'_1.mpr ⟨hin.1, by omega⟩, rfl⟩
        rw [if_pos hmem, if_pos hmem]
      · rw [if_neg hin, if_neg hin, hcx]
    · rw [gatherC_snd, gatherC_snd, hwr]

theorem foldl_cols_congr {a b c : Type} [Inhabited a] [Inhabited b] (S : GBSemiring a b c)
    (A : GBMat a) (B : GBMat b) (C : GBMat c) (l : List Nat) :
    ∀ st1 st2 : KSt c, st1.cx = st2.cx → st1.wr = st2.wr →
      ((l.foldl (fun st j => gustavsonCol S A B C j st) st1).cx =
        (l.foldl (fun st j => gustavsonCol S A B C j st) st2).cx ∧
       (l.foldl (fun st j => gustavsonCol S A B C j st) st1).wr =
        (l.foldl (fun st j => gustavsonCol S A B C j st) st2).wr) := by
  induction l with
  | nil => intro st1 st2 hcx hwr; exact ⟨hcx, hwr⟩
  | cons j t ih =>
    intro st1 st2 hcx hwr
    simp only [List.foldl_cons]
    obtain ⟨h1, h2⟩ := gustavsonCol_congr S A B C j st1 st2 hcx hwr
    exact ih _ _ h1 h2

/-- C9: the C value array produced by the kernel is independent of the
workspace's initial contents: runs with identical A, B, C pattern and
semiring but arbitrary different initial workspaces produce the same value
array, because every slot read by a column's gather was set to the identity
by that column's clear step. -/
theorem C9_stale_workspace_independent {a b c : Type} [Inhabited a] [Inhabited b]
    (S : GBSemiring a b c) (A : GBMat a) (B : GBMat b) (C : GBMat c)
    (w1 w2 cx0 : Nat → c) :
    (gustavsonNoMask S A B C w1 cx0).cx = (gustavsonNoMask S A B C w2 cx0).cx := by
  unfold gustavsonNoMask
  exact (foldl_cols_congr S A B C _ ⟨w1, cx0, []⟩ ⟨w2, cx0, []⟩ rfl rfl).1

/-- C8: the kernel is deterministic: two runs on freshly cleared workspace
buffers (all slots holding the same value `z`) with identical inputs produce
identical results, bit for bit. -/
theorem C8_deterministic {a b c : Type} [Inhabited a] [Inhabited b]
    (S : GBSemiring a b c) (A : GBMat a) (B : GBMat b) (C : GBMat c)
    (z : c) (w1 w2 cx0 : Nat → c) (h1 : ∀ q, w1 q = z) (h2 : ∀ q, w2 q = z) :
    gustavsonNoMask S A B C w1 cx0 = gustavsonNoMask S A B C w2 cx0 := by
  have h : w1 = w2 := funext (fun q => (h1 q).trans (h2 q).symm)
  rw [h]

/-- Witness for C8 at the concrete scenario, with both workspaces freshly
cleared to 0. -/
theorem C8_deterministic_witness :
    gustavsonNoMask exS exA exB exC (fun _ => 0) (fun _ => 9) =
      gustavsonNoMask exS exA exB exC (fun _ => 0) (fun _ => 9) :=
  C8_deterministic exS exA exB exC 0 (fun _ => 0) (fun _ => 0) (fun _ => 9)
    (fun _ => rfl) (fun _ => rfl)

/-! ### The invariant-check block (C4) -/

/-- C4 (code bug): with non-aliased buffers and matching dimensions but an
unfinalized C pattern (`magic ≠ MAGIC`), every invariant check still passes —
the magic assert is the assignment `C->magic = MAGIC`, whose value is the
nonzero constant `MAGIC` — and the block even re-tags C as finalized, so the
call proceeds instead of aborting fatally as the claim requires. -/
theorem C4_magic_check_is_assignment :
    exCbad.magic ≠ MAGIC ∧
    (checkInputs 0 1 2 3 exCbad exA exB).1 = true ∧
    (checkInputs 0 1 2 3 exCbad exA exB).2.magic = MAGIC := by decide

/-! ### The record layer (C10) -/

theorem getD_set_self {α : Type} [Inhabited α] (l : List α) (idx : Nat) (v : α)
    (h : idx < l.length) : (l.set idx v).getD idx default = v := by
  simp [List.getD, List.getElem?_set_self', h]

/-- C10: the record accessors are not side-effect-free reads: for every record
and valid index, `Record_GetScalar`, `Record_GetNode` and `Record_GetEdge`
overwrite the type tag of the addressed entry with scalar / node / edge
respectively, regardless of its previous type (in particular an entry of
unknown type is silently marked scalar), and return the stored union value. -/
theorem C10_record_getters_set_type {V N E : Type} [Inhabited V] [Inhabited N] [Inhabited E]
    (r : GRecord V N E) (idx : Nat) (h : idx < r.entries.length) :
    ((Record_GetScalar r idx).2.entries.getD idx default).type = RecEntryType.scalar ∧
    (Record_GetScalar r idx).1 = (r.entries.getD idx default).s ∧
    ((Record_GetNode r idx).2.entries.getD idx default).type = RecEntryType.node ∧
    (Record_GetNode r idx).1 = (r.entries.getD idx default).n ∧
    ((Record_GetEdge r idx).2.entries.getD idx default).type = RecEntryType.edge ∧
    (Record_GetEdge r idx).1 = (r.entries.getD idx default).e := by
  unfold Record_GetScalar Record_GetNode Record_GetEdge
  dsimp only
  rw [getD_set_self _ _ _ h, getD_set_self _ _ _ h, getD_set_self _ _ _ h]
  exact ⟨rfl, rfl, rfl, rfl, rfl, rfl⟩

/-- Witness for C10: a one-entry record of unknown type; `Record_GetScalar`
marks it scalar and returns its stored value. -/
theorem C10_record_getters_set_type_witness :
    ((Record_GetScalar (⟨[⟨RecEntryType.unknown, 5, 6, 7⟩]⟩ : GRecord Nat Nat Nat) 0).2.entries.getD
        0 default).type = RecEntryType.scalar ∧
    (Record_GetScalar (⟨[⟨RecEntryType.unknown, 5, 6, 7⟩]⟩ : GRecord Nat Nat Nat) 0).1 =
      ((⟨[⟨RecEntryType.unknown, 5, 6, 7⟩]⟩ : GRecord Nat Nat Nat).entries.getD 0 default).s ∧
    ((Record_GetNode (⟨[⟨RecEntryType.unknown, 5, 6, 7⟩]⟩ : GRecord Nat Nat Nat) 0).2.entries.getD
        0 default).type = RecEntryType.node ∧
    (Record_GetNode (⟨[⟨RecEntryType.unknown, 5, 6, 7⟩]⟩ : GRecord Nat Nat Nat) 0).1 =
      ((⟨[⟨RecEntryType.unknown, 5, 6, 7⟩]⟩ : GRecord Nat Nat Nat).entries.getD 0 default).n ∧
    ((Record_GetEdge (⟨[⟨RecEntryType.unknown, 5, 6, 7⟩]⟩ : GRecord Nat Nat Nat) 0).2.entries.getD
        0 default).type = RecEntryType.edge ∧
    (Record_GetEdge (⟨[⟨RecEntryType.unknown, 5, 6, 7⟩]⟩ : GRecord Nat Nat Nat) 0).1 =
      ((⟨[⟨RecEntryType.unknown, 5, 6, 7⟩]⟩ : GRecord Nat Nat Nat).entries.getD 0 default).e :=
  C10_record_getters_set_type (⟨[⟨RecEntryType.unknown, 5, 6, 7⟩]⟩ : GRecord Nat Nat Nat) 0
    (by decide)

/-! ### The hypersparse path -/

-- Sanity: on the all-sparse example the hypersparse path agrees with the
-- non-hypersparse path, performs no locate and never trims.
example :
    (hGustavson exS exA exB exC (fun _ => 9) (fun _ => 9)).cx 0 = 1 ∧
    (hGustavson exS exA exB exC (fun _ => 9) (fun _ => 9)).cx 1 = 1 ∧
    (hGustavson exS exA exB exC (fun _ => 9) (fun _ => 9)).cx 2 = 2 ∧
    (hGustavson exS exA exB exC (fun _ => 9) (fun _ => 9)).trims = [(0, 1), (0, 1)] ∧
    (hGustavson exS exA exB exC (fun _ => 9) (fun _ => 9)).locs = [] := by
  decide

-- Sanity: with A hypersparse (h = [0, 5]) and B's single column holding the
-- three entries k = 0, 1, 2, the window is trimmed to (0, 0) and the three
-- lookups yield slot 0, not-found, not-found.
example :
    (hGustavson exS hexA hexB hexC (fun _ => 0) (fun _ => 0)).cx 0 = 1 ∧
    (hGustavson exS hexA hexB hexC (fun _ => 0) (fun _ => 0)).trims = [(0, 0)] ∧
    (hGustavson exS hexA hexB hexC (fun _ => 0) (fun _ => 0)).locs =
      [some 0, none, none] := by
  decide

/-- C5: a column whose C pattern range is empty is skipped entirely: the
kernel state — workspace, value array, window trace and locate trace — is
returned unchanged, so no workspace position is touched and no trim or
lookup runs for that column. -/
theorem C5_empty_column_skip {a b c : Type} [Inhabited a] [Inhabited b] (S : GBSemiring a b c)
    (A : GBMat a) (B : GBMat b) (C : GBMat c) (s : Nat) (st : HSt c)
    (h : (cRangeFor C (jOf B s)).2 = (cRangeFor C (jOf B s)).1) :
    hColBody S A B C s st = st := by
  unfold hColBody
  simp only [h, beq_self_eq_true, if_true]

/-- Witness for C5: column 0 of `exCe` has an empty pattern range, so the
body returns its input state unchanged. -/
theorem C5_empty_column_skip_witness :
    hColBody exS exA exB exCe 0 ⟨fun _ => 0, fun _ => 0, [], []⟩ =
      (⟨fun _ => 0, fun _ => 0, [], []⟩ : HSt Nat) :=
  C5_empty_column_skip exS exA exB exCe 0 ⟨fun _ => 0, fun _ => 0, [], []⟩ (by decide)

theorem hColBody_trims {a b c : Type} [Inhabited a] [Inhabited b] (S : GBSemiring a b c)
    (A : GBMat a) (B : GBMat b) (C : GBMat c) (s : Nat) (st : HSt c) :
    (hColBody S A B C s st).trims = st.trims ++ (windowOf A B C s).toList := by
  unfold hColBody windowOf
  by_cases hg : (cRangeFor C (jOf B s)).2 = (cRangeFor C (jOf B s)).1
  · simp only [hg, beq_self_eq_true, if_true]
    simp
  · simp only [beq_eq_false_iff_ne.mpr hg]
    rw [if_neg Bool.false_ne_true, if_neg Bool.false_ne_true]
    rfl

theorem hGustavson_trims {a b c : Type} [Inhabited a] [Inhabited b] (S : GBSemiring a b c)
    (A : GBMat a) (B : GBMat b) (C : GBMat c) (w0 cx0 : Nat → c) :
    (hGustavson S A B C w0 cx0).trims = (List.range B.nvec).filterMap (windowOf A B C) := by
  have aux : ∀ (l : List Nat) (st : HSt c),
      ((l.foldl (fun st s => hColBody S A B C s st) st).trims) =
        st.trims ++ l.filterMap (windowOf A B C) := by
    intro l
    induction l with
    | nil => intro st; simp
    | cons s t ih =>
      intro st
      simp only [List.foldl_cons, List.filterMap_cons]
      rw [ih, hColBody_trims]
      cases hw : windowOf A B C s
      · simp
      · simp
  unfold hGustavson
  rw [aux]
  simp

theorem getD_eq_getElem {l : List Nat} {n : Nat} (h : n < l.length) : l.getD n 0 = l[n] := by
  rw [List.getD_eq_getElem?_getD, List.getElem?_eq_getElem h]
  rfl

theorem sorted_countP_char (Ah : List Nat) (maxid : Nat)
    (hsort : ColStrictIncr Ah 0 Ah.length) (t : Nat) (ht : t < Ah.length) :
    Ah.getD t 0 ≤ maxid ↔ t < Ah.countP (fun v => decide (v ≤ maxid)) := by
  constructor
  · intro hle
    have hsplit : Ah.countP (fun v => decide (v ≤ maxid)) =
        (Ah.take (t + 1)).countP (fun v => decide (v ≤ maxid)) +
        (Ah.drop (t + 1)).countP (fun v => decide (v ≤ maxid)) := by
      conv_lhs => rw [← List.take_append_drop (t + 1) Ah]
      rw [List.countP_append]
    have hall : ∀ x ∈ Ah.take (t + 1), (fun v => decide (v ≤ maxid)) x = true := by
      intro x hx
      rw [List.mem_iff_getElem] at hx
      obtain ⟨q, hq, rfl⟩ := hx
      have hqlen : q < Ah.length := by
        have := List.length_take (t + 1) Ah
        omega
      rw [List.getElem_take]
      rw [← getD_eq_getElem hqlen]
      have hqt : q < t + 1 := by
        have := List.length_take (t + 1) Ah
        omega
      rcases Nat.lt_or_ge q t with hqlt | hqge
      · have := hsort.lt_of_lt q t (Nat.zero_le q) hqlt ht
        simp only [decide_eq_true_eq]
        omega
      · have hqe : q = t := by omega
        subst hqe
        simp only [decide_eq_true_eq]
        exact hle
    have hcnt : (Ah.take (t + 1)).countP (fun v => decide (v ≤ maxid)) =
        (Ah.take (t + 1)).length := List.countP_eq_length.mpr hall
    have hlen : (Ah.take (t + 1)).length = t + 1 := by
      rw [List.length_take]
      omega
    omega
  · intro hcnt
    by_contra hgt
    push_neg at hgt
    have hsplit : Ah.countP (fun v => decide (v ≤ maxid)) =
        (Ah.take t).countP (fun v => decide (v ≤ maxid)) +
        (Ah.drop t).countP (fun v => decide (v ≤ maxid)) := by
      conv_lhs => rw [← List.take_append_drop t Ah]
      rw [List.countP_append]
    have hdrop : (Ah.drop t).countP (fun v => decide (v ≤ maxid)) = 0 := by
      rw [List.countP_eq_zero]
      intro x hx
      rw [List.mem_iff_getElem] at hx
      obtain ⟨q, hq, rfl⟩ := hx
      have hqlen : t + q < Ah.length := by
        have := List.length_drop t Ah
        omega
      rw [List.getElem_drop]
      rw [← getD_eq_getElem hqlen]
      simp only [decide_eq_true_eq]
      rcases Nat.eq_zero_or_pos q with hq0 | hqpos
      · subst hq0
        simp only [Nat.add_zero]
        omega
      · have := hsort.lt_of_lt t (t + q) (Nat.zero_le t) (by omega) hqlen
        omega
    have htake : (Ah.take t).countP (fun v => decide (v ≤ maxid)) ≤ t := by
      have h1 := List.countP_le_length (p := fun v => decide (v ≤ maxid)) (l := Ah.take t)
      have h2 := List.length_take t Ah
      omega
    omega

theorem trimRight_char (Ah : List Nat) (maxid : Nat)
    (hsort : ColStrictIncr Ah 0 Ah.length) (t : Nat) (ht : t < Ah.length) :
    ((t : Int) ≤ trimRight Ah maxid ((Ah.length : Int) - 1) ↔ Ah.getD t 0 ≤ maxid) := by
  unfold trimRight
  have htoNat : ((Ah.length : Int) - 1 + 1).toNat = Ah.length := by omega
  rw [htoNat, List.take_length]
  rw [sorted_countP_char Ah maxid hsort t ht]
  omega

/-- C3 (counterexample): with A hypersparse, B NOT hypersparse and B's column
holding three entries, the kernel trims anyway — the recorded window is
`(0, 0)`, not the full range `(0, nvec(A) - 1) = (0, 1)` that the claim
demands "in all other cases" (its trigger being "B is hypersparse"). -/
theorem C3_trim_condition_counterexample :
    hexB.is_hyper = false ∧ 2 < bjnzOf hexB 0 ∧ hexA.is_hyper = true ∧
    (hGustavson exS hexA hexB hexC (fun _ => 0) (fun _ => 0)).trims = [(0, 0)] ∧
    ¬((0 : Nat), (0 : Int)) = ((0 : Nat), ((hexA.nvec : Int) - 1)) := by
  decide

/-- C3 (amended): the windows recorded by the kernel are exactly
`windowOf`; for every processed column, the lower bound is 0 and, when A is
hypersparse and B's column has more than two stored entries, the right bound
is trimmed before any per-entry lookup so as to keep exactly the vector
slots of A whose column id does not exceed the last row id B references in
that column (`Bi [pB_end-1]`); in all other cases the window stays the full
range `[0, nvec(A) - 1]`. -/
theorem C3_trim_window_amended {a b c : Type} [Inhabited a] [Inhabited b]
    (S : GBSemiring a b c) (A : GBMat a) (B : GBMat b) (C : GBMat c) (w0 cx0 : Nat → c)
    (hWA : WFMat A) :
    (hGustavson S A B C w0 cx0).trims = (List.range B.nvec).filterMap (windowOf A B C) ∧
    (∀ s pl pr, windowOf A B C s = some (pl, pr) →
      pl = 0 ∧
      ((A.is_hyper = true ∧ 2 < bjnzOf B s) →
        ∀ t, t < A.nvec → ((t : Int) ≤ pr ↔ A.h.getD t 0 ≤ maxidOf B s)) ∧
      (¬(A.is_hyper = true ∧ 2 < bjnzOf B s) → pr = (A.nvec : Int) - 1)) := by
  refine ⟨hGustavson_trims S A B C w0 cx0, ?_⟩
  intro s pl pr hw
  unfold windowOf at hw
  by_cases hg : (cRangeFor C (jOf B s)).2 = (cRangeFor C (jOf B s)).1
  · simp only [hg, beq_self_eq_true, if_true] at hw
    exact absurd hw (Option.noConfusion)
  · simp only [beq_eq_false_iff_ne.mpr hg] at hw
    rw [if_neg Bool.false_ne_true] at hw
    by_cases hc : A.is_hyper = true ∧ 2 < bjnzOf B s
    · have hb : (A.is_hyper && decide (2 < bjnzOf B s)) = true := by
        rw [Bool.and_eq_true, decide_eq_true_eq]
        exact hc
      rw [if_pos hb] at hw
      obtain ⟨rfl, rfl⟩ : pl = 0 ∧ pr = trimRight A.h (maxidOf B s) ((A.nvec : Int) - 1) := by
        have := Option.some.inj hw
        exact ⟨congrArg Prod.fst this.symm, congrArg Prod.snd this.symm⟩
      refine ⟨rfl, ?_, ?_⟩
      · intro _ t ht
        obtain ⟨_hA1, _hA2, _hA3, _hA4, _hA5, _hA6, _hA7, hA8⟩ := hWA
        rw [hc.1] at hA8
        rw [if_pos rfl] at hA8
        obtain ⟨hlen, hsort, _⟩ := hA8
        have := trimRight_char A.h (maxidOf B s) (by rw [hlen]; exact hsort) t (by omega)
        rw [hlen] at this
        exact this
      · intro habs
        exact absurd hc habs
    · have hb : (A.is_hyper && decide (2 < bjnzOf B s)) = false := by
        rw [Bool.and_eq_false_iff]
        by_cases hh : A.is_hyper = true
        · right
          rw [decide_eq_false_iff_not]
          intro h2
          exact hc ⟨hh, h2⟩
        · left
          exact Bool.not_eq_true A.is_hyper ▸ hh
      rw [hb] at hw
      rw [if_neg Bool.false_ne_true] at hw
      obtain ⟨rfl, rfl⟩ : pl = 0 ∧ pr = (A.nvec : Int) - 1 := by
        have := Option.some.inj hw
        exact ⟨congrArg Prod.fst this.symm, congrArg Prod.snd this.symm⟩
      exact ⟨rfl, fun habs => absurd habs hc, fun _ => rfl⟩

/-- Witness for C3 (amended) on the hypersparse example: the single recorded
window is the trimmed one, and the trim keeps exactly the A slots with id at
most 2. -/
theorem C3_trim_window_amended_witness :
    ((hGustavson exS hexA hexB hexC (fun _ => 0) (fun _ => 0)).trims =
      (List.range hexB.nvec).filterMap (windowOf hexA hexB hexC) ∧
    (∀ s pl pr, windowOf hexA hexB hexC s = some (pl, pr) →
      pl = 0 ∧
      ((hexA.is_hyper = true ∧ 2 < bjnzOf hexB s) →
        ∀ t, t < hexA.nvec → ((t : Int) ≤ pr ↔ hexA.h.getD t 0 ≤ maxidOf hexB s)) ∧
      (¬(hexA.is_hyper = true ∧ 2 < bjnzOf hexB s) → pr = (hexA.nvec : Int) - 1))) :=
  C3_trim_window_amended exS hexA hexB hexC (fun _ => 0) (fun _ => 0) (by decide)

/-- C7: under the precondition that C's pattern was produced by the symbolic
phase from A and B, every non-skipped column of B has a non-empty range —
`bjnz > 0`, so the assertion never fires — and the trim access
`Bi [pB_end-1]` is in bounds. -/
theorem C7_nonempty_B_range {a b c : Type} (A : GBMat a) (B : GBMat b) (C : GBMat c)
    (hP : PatternFromSymbolic A B C) (hWB : WFMat B) (s : Nat) (hs : s < B.nvec)
    (hne : (cRangeFor C (jOf B s)).1 < (cRangeFor C (jOf B s)).2) :
    0 < bjnzOf B s ∧ B.p.getD (s + 1) 0 - 1 < B.i.length := by
  obtain ⟨pB, h1, h2, _⟩ := hP s hs (cRangeFor C (jOf B s)).1 hne (Nat.le_refl _)
  obtain ⟨_hB1, _hB2, hB3, hB4, _hB5, _hB6, _hB7, _hB8⟩ := hWB
  have hle : B.p.getD (s + 1) 0 ≤ B.p.getD B.nvec 0 :=
    hB3.le_of_le (s + 1) B.nvec (by omega) (by omega)
  constructor
  · unfold bjnzOf
    omega
  · omega

/-- Witness for C7 on the concrete scenario (column of slot 1). -/
theorem C7_nonempty_B_range_witness :
    0 < bjnzOf exB 1 ∧ exB.p.getD (1 + 1) 0 - 1 < exB.i.length :=
  C7_nonempty_B_range exA exB exC (by decide) (by decide) 1 (by decide) (by decide)

theorem locateSlot_some_spec {Ah : List Nat} {pl : Nat} {pr : Int} {k t : Nat}
    (h : locateSlot Ah pl pr k = some t) :
    pl ≤ t ∧ (t : Int) ≤ pr ∧ Ah.getD t 0 = k := by
  have hmem := List.mem_of_find?_eq_some h
  have hp := List.find?_some h
  rw [List.mem_range'_1] at hmem
  refine ⟨hmem.1, ?_, beq_iff_eq.mp hp⟩
  have := hmem.2
  omega

theorem locateSlot_eq_some {Ah : List Nat} {pl : Nat} {pr : Int} {k t : Nat}
    (h1 : pl ≤ t) (h2 : (t : Int) ≤ pr) (hk : Ah.getD t 0 = k)
    (hbefore : ∀ q, pl ≤ q → q < t → Ah.getD q 0 ≠ k) :
    locateSlot Ah pl pr k = some t := by
  unfold locateSlot
  have hlt : t < pl + (pr + 1 - (pl : Int)).toNat := by omega
  have hsplit := range'_split_at pl (pl + (pr + 1 - (pl : Int)).toNat) t h1 hlt
  rw [show pl + (pr + 1 - (pl : Int)).toNat - pl = (pr + 1 - (pl : Int)).toNat by omega]
    at hsplit
  rw [hsplit]
  refine find?_eq_some_of_split _ _ t _ ?_ (beq_iff_eq.mpr hk)
  intro y hy
  rw [List.mem_range'_1] at hy
  exact beq_eq_false_iff_ne.mpr (hbefore y hy.1 (by omega))

theorem locateSlot_eq_none {Ah : List Nat} {pl : Nat} {pr : Int} {k : Nat}
    (h : ∀ x, pl ≤ x → (x : Int) ≤ pr → Ah.getD x 0 ≠ k) :
    locateSlot Ah pl pr k = none := by
  refine List.find?_eq_none.mpr ?_
  intro x hx
  rw [List.mem_range'_1] at hx
  have hxpr : (x : Int) ≤ pr := by omega
  exact beq_eq_false_iff_ne.mpr (h x hx.1 hxpr) ▸ Bool.false_ne_true

theorem locateSlot_window_eq (Ah : List Nat) (anvec : Nat) (hlen : Ah.length = anvec)
    (hsort : ColStrictIncr Ah 0 anvec) (pleft : Nat) (pright : Int) (k : Nat)
    (hpl : ∀ p, p < pleft → Ah.getD p 0 < k)
    (hpr : ∀ p, p < anvec → pright < (p : Int) → k < Ah.getD p 0)
    (hprle : pright ≤ (anvec : Int) - 1) :
    locateSlot Ah pleft pright k = locateSlot Ah 0 ((anvec : Int) - 1) k := by
  by_cases hex : ∃ t, t < anvec ∧ Ah.getD t 0 = k
  · obtain ⟨t, ht, hk⟩ := hex
    have hbefore : ∀ q, q < t → Ah.getD q 0 ≠ k := by
      intro q hq heq
      have := hsort.lt_of_lt q t (Nat.zero_le q) hq ht
      omega
    have h1 : pleft ≤ t := by
      by_contra hlt
      push_neg at hlt
      have := hpl t hlt
      omega
    have h2 : (t : Int) ≤ pright := by
      by_contra hgt
      push_neg at hgt
      have := hpr t ht hgt
      omega
    rw [locateSlot_eq_some h1 h2 hk (fun q hq1 hq2 => hbefore q hq2),
      locateSlot_eq_some (Nat.zero_le t) (by omega) hk (fun q hq1 hq2 => hbefore q hq2)]
  · push_neg at hex
    rw [locateSlot_eq_none (fun x _ hx2 => hex x (by omega)),
      locateSlot_eq_none (fun x _ hx2 => hex x (by omega))]

theorem trimRight_le (Ah : List Nat) (maxid : Nat) :
    trimRight Ah maxid ((Ah.length : Int) - 1) ≤ (Ah.length : Int) - 1 := by
  unfold trimRight
  have h1 := List.countP_le_length (p := fun v => decide (v ≤ maxid)) (l := Ah.take ((Ah.length : Int) - 1 + 1).toNat)
  have h2 := List.length_take (((Ah.length : Int) - 1 + 1)).toNat Ah
  omega

theorem hsaxpyStep_eq_naive_nonhyper {a b c : Type} [Inhabited a] [Inhabited b]
    (S : GBSemiring a b c) (A : GBMat a) (Bi : List Nat) (Bx : List b) (pright : Int)
    (hhyp : A.is_hyper = false) (st : HSaxSt c) (pB : Nat) :
    hsaxpyStep S A Bi Bx pright st pB = hsaxpyNaiveStep S A Bi Bx st pB := by
  unfold hsaxpyStep hsaxpyNaiveStep lookupA
  simp only [hhyp, if_neg Bool.false_ne_true]

theorem hsaxpyGo_eq_naive_nonhyper {a b c : Type} [Inhabited a] [Inhabited b]
    (S : GBSemiring a b c) (A : GBMat a) (Bi : List Nat) (Bx : List b) (pright : Int)
    (hhyp : A.is_hyper = false) (l : List Nat) (st0 : HSaxSt c) :
    hsaxpyGo S A Bi Bx pright l st0 = hsaxpyNaiveGo S A Bi Bx l st0 := by
  unfold hsaxpyGo hsaxpyNaiveGo
  exact foldl_congr_mem
    (fun acc x _ => hsaxpyStep_eq_naive_nonhyper S A Bi Bx pright hhyp acc x) st0

theorem hsaxpyStep_hyper_some {a b c : Type} [Inhabited a] [Inhabited b]
    (S : GBSemiring a b c) (A : GBMat a) (Bi : List Nat) (Bx : List b) (pright : Int)
    (hhyp : A.is_hyper = true) (st : HSaxSt c) (pB u : Nat)
    (hres : locateSlot A.h st.pleft pright (Bi.getD pB 0) = some u) :
    hsaxpyStep S A Bi Bx pright st pB =
      if A.p.getD u 0 == A.p.getD (u + 1) 0 then ⟨st.w, u, st.locs ++ [some u]⟩
      else ⟨scatterW S A.i A.x (Bx.getD pB default) (A.p.getD u 0) (A.p.getD (u + 1) 0) st.w,
            u, st.locs ++ [some u]⟩ := by
  unfold hsaxpyStep lookupA
  dsimp only
  simp only [hhyp, if_pos (rfl : true = true), if_true]
  rw [hres]

theorem hsaxpyStep_hyper_none {a b c : Type} [Inhabited a] [Inhabited b]
    (S : GBSemiring a b c) (A : GBMat a) (Bi : List Nat) (Bx : List b) (pright : Int)
    (hhyp : A.is_hyper = true) (st : HSaxSt c) (pB : Nat)
    (hres : locateSlot A.h st.pleft pright (Bi.getD pB 0) = none) :
    hsaxpyStep S A Bi Bx pright st pB = ⟨st.w, st.pleft, st.locs ++ [none]⟩ := by
  unfold hsaxpyStep lookupA
  dsimp only
  simp only [hhyp, if_pos (rfl : true = true), if_true]
  rw [hres]
  rfl

theorem hsaxpyNaiveStep_hyper_some {a b c : Type} [Inhabited a] [Inhabited b]
    (S : GBSemiring a b c) (A : GBMat a) (Bi : List Nat) (Bx : List b)
    (hhyp : A.is_hyper = true) (st : HSaxSt c) (pB u : Nat)
    (hres : locateSlot A.h 0 ((A.nvec : Int) - 1) (Bi.getD pB 0) = some u) :
    hsaxpyNaiveStep S A Bi Bx st pB =
      if A.p.getD u 0 == A.p.getD (u + 1) 0 then ⟨st.w, st.pleft, st.locs ++ [some u]⟩
      else ⟨scatterW S A.i A.x (Bx.getD pB default) (A.p.getD u 0) (A.p.getD (u + 1) 0) st.w,
            st.pleft, st.locs ++ [some u]⟩ := by
  unfold hsaxpyNaiveStep lookupA
  dsimp only
  simp only [hhyp, if_pos (rfl : true = true), if_true]
  rw [hres]

theorem hsaxpyNaiveStep_hyper_none {a b c : Type} [Inhabited a] [Inhabited b]
    (S : GBSemiring a b c) (A : GBMat a) (Bi : List Nat) (Bx : List b)
    (hhyp : A.is_hyper = true) (st : HSaxSt c) (pB : Nat)
    (hres : locateSlot A.h 0 ((A.nvec : Int) - 1) (Bi.getD pB 0) = none) :
    hsaxpyNaiveStep S A Bi Bx st pB = ⟨st.w, st.pleft, st.locs ++ [none]⟩ := by
  unfold hsaxpyNaiveStep lookupA
  dsimp only
  simp only [hhyp, if_pos (rfl : true = true), if_true]
  rw [hres]
  rfl

theorem hsaxpyGo_eq_naive_hyper {a b c : Type} [Inhabited a] [Inhabited b]
    (S : GBSemiring a b c) (A : GBMat a) (Bi : List Nat) (Bx : List b) (pright : Int)
    (hhyp : A.is_hyper = true) (hlen : A.h.length = A.nvec)
    (hsort : ColStrictIncr A.h 0 A.nvec) (hprle : pright ≤ (A.nvec : Int) - 1) :
    ∀ (l : List Nat),
      l.Pairwise (fun p1 p2 => Bi.getD p1 0 < Bi.getD p2 0) →
      (∀ pB ∈ l, ∀ p, p < A.nvec → pright < (p : Int) → Bi.getD pB 0 < A.h.getD p 0) →
      ∀ (pleft pl2 : Nat),
      (∀ p, p < pleft → ∀ pB ∈ l, A.h.getD p 0 < Bi.getD pB 0) →
      ∀ (w : Nat → c) (ls : List (Option Nat)),
      (hsaxpyGo S A Bi Bx pright l ⟨w, pleft, ls⟩).w =
        (hsaxpyNaiveGo S A Bi Bx l ⟨w, pl2, ls⟩).w ∧
      (hsaxpyGo S A Bi Bx pright l ⟨w, pleft, ls⟩).locs =
        (hsaxpyNaiveGo S A Bi Bx l ⟨w, pl2, ls⟩).locs := by
  intro l
  induction l with
  | nil => intro _ _ pleft pl2 _ w ls; exact ⟨rfl, rfl⟩
  | cons pB t ih =>
    intro hkeys hpr pleft pl2 hpl w ls
    have hloceq : locateSlot A.h pleft pright (Bi.getD pB 0) =
        locateSlot A.h 0 ((A.nvec : Int) - 1) (Bi.getD pB 0) :=
      locateSlot_window_eq A.h A.nvec hlen hsort pleft pright _
        (fun p hp => hpl p hp pB (List.mem_cons_self pB t))
        (fun p hp hpr' => hpr pB (List.mem_cons_self pB t) p hp hpr')
        hprle
    have hkt := (List.pairwise_cons.mp hkeys).2
    have hkhd := (List.pairwise_cons.mp hkeys).1
    have hprt : ∀ pB' ∈ t, ∀ p, p < A.nvec → pright < (p : Int) →
        Bi.getD pB' 0 < A.h.getD p 0 :=
      fun pB' h => hpr pB' (List.mem_cons_of_mem pB h)
    have hfold1 : hsaxpyGo S A Bi Bx pright (pB :: t) ⟨w, pleft, ls⟩ =
        hsaxpyGo S A Bi Bx pright t (hsaxpyStep S A Bi Bx pright ⟨w, pleft, ls⟩ pB) := rfl
    have hfold2 : hsaxpyNaiveGo S A Bi Bx (pB :: t) ⟨w, pl2, ls⟩ =
        hsaxpyNaiveGo S A Bi Bx t (hsaxpyNaiveStep S A Bi Bx ⟨w, pl2, ls⟩ pB) := rfl
    rw [hfold1, hfold2]
    cases hres : locateSlot A.h 0 ((A.nvec : Int) - 1) (Bi.getD pB 0) with
    | none =>
      rw [hsaxpyStep_hyper_none S A Bi Bx pright hhyp _ pB (hloceq.trans hres),
        hsaxpyNaiveStep_hyper_none S A Bi Bx hhyp _ pB hres]
      exact ih hkt hprt pleft pl2
        (fun p hp pB' hpB' => hpl p hp pB' (List.mem_cons_of_mem pB hpB')) w (ls ++ [none])
    | some u =>
      obtain ⟨_, hu2, hu3⟩ := locateSlot_some_spec hres
      have hunv : u < A.nvec := by omega
      have hplnew : ∀ p, p < u → ∀ pB' ∈ t, A.h.getD p 0 < Bi.getD pB' 0 := by
        intro p hp pB' hpB'
        have h1 : A.h.getD p 0 < A.h.getD u 0 := hsort.lt_of_lt p u (Nat.zero_le p) hp hunv
        have h2 : Bi.getD pB 0 < Bi.getD pB' 0 := hkhd pB' hpB'
        omega
      rw [hsaxpyStep_hyper_some S A Bi Bx pright hhyp _ pB u (hloceq.trans hres),
        hsaxpyNaiveStep_hyper_some S A Bi Bx hhyp _ pB u hres]
      by_cases hc : A.p.getD u 0 = A.p.getD (u + 1) 0
      · rw [if_pos (beq_iff_eq.mpr hc), if_pos (beq_iff_eq.mpr hc)]
        exact ih hkt hprt u pl2 hplnew w (ls ++ [some u])
      · rw [if_neg (fun h => hc (beq_iff_eq.mp h)), if_neg (fun h => hc (beq_iff_eq.mp h))]
        exact ih hkt hprt u pl2 hplnew _ (ls ++ [some u])

theorem hColBody_eq_naive {a b c : Type} [Inhabited a] [Inhabited b] (S : GBSemiring a b c)
    (A : GBMat a) (B : GBMat b) (C : GBMat c) (s : Nat)
    (hWA : WFMat A) (hWB : WFMat B) (hs : s < B.nvec) (st1 st2 : HSt c)
    (hw : st1.w = st2.w) (hcx : st1.cx = st2.cx) (hlocs : st1.locs = st2.locs) :
    (hColBody S A B C s st1).w = (hColBodyNaive S A B C s st2).w ∧
    (hColBody S A B C s st1).cx = (hColBodyNaive S A B C s st2).cx ∧
    (hColBody S A B C s st1).locs = (hColBodyNaive S A B C s st2).locs := by
  have hBi : ColStrictIncr B.i (B.p.getD s 0) (B.p.getD (s + 1) 0) :=
    hWB.2.2.2.2.2.1 s hs
  unfold hColBody hColBodyNaive
  by_cases hg : (cRangeFor C (jOf B s)).2 = (cRangeFor C (jOf B s)).1
  · simp only [hg, beq_self_eq_true, if_true]
    exact ⟨hw, hcx, hlocs⟩
  · simp only [beq_eq_false_iff_ne.mpr hg]
    rw [if_neg Bool.false_ne_true, if_neg Bool.false_ne_true]
    dsimp only
    rw [hw, hcx, hlocs]
    have hkeys : (List.range' (B.p.getD s 0) (B.p.getD (s + 1) 0 - B.p.getD s 0)).Pairwise
        (fun p1 p2 => B.i.getD p1 0 < B.i.getD p2 0) := pairwise_vals_range' hBi
    have hmaxle : ∀ pB ∈ List.range' (B.p.getD s 0) (B.p.getD (s + 1) 0 - B.p.getD s 0),
        B.i.getD pB 0 ≤ B.i.getD (B.p.getD (s + 1) 0 - 1) 0 := by
      intro pB hpB
      rw [List.mem_range'_1] at hpB
      rcases Nat.lt_or_ge pB (B.p.getD (s + 1) 0 - 1) with hlt | hge
      · exact Nat.le_of_lt (hBi.lt_of_lt pB _ hpB.1 hlt (by omega))
      · have : pB = B.p.getD (s + 1) 0 - 1 := by omega
        rw [this]
    cases hh : A.is_hyper with
    | false =>
      simp only [hh, Bool.false_and]
      rw [if_neg Bool.false_ne_true]
      have hr : hsaxpy S A B.i B.x (B.p.getD s 0) (B.p.getD (s + 1) 0)
            ((0 : Nat × Int), ((A.nvec : Int) - 1)).2
            ⟨clearW S.identity C.i (cRangeFor C (jOf B s)).1 (cRangeFor C (jOf B s)).2 st2.w,
              ((0 : Nat), ((A.nvec : Int) - 1)).1, []⟩ =
          hsaxpyNaive S A B.i B.x (B.p.getD s 0) (B.p.getD (s + 1) 0)
            ⟨clearW S.identity C.i (cRangeFor C (jOf B s)).1 (cRangeFor C (jOf B s)).2 st2.w,
              ((0 : Nat), ((A.nvec : Int) - 1)).1, []⟩ :=
        hsaxpyGo_eq_naive_nonhyper S A B.i B.x _ hh _ _
      rw [hr]
      exact ⟨rfl, rfl, rfl⟩
    | true =>
      obtain ⟨_hA1, _hA2, _hA3, _hA4, _hA5, _hA6, _hA7, hA8⟩ := hWA
      rw [hh] at hA8
      rw [if_pos rfl] at hA8
      obtain ⟨hlen, hsort, _⟩ := hA8
      simp only [hh, Bool.true_and]
      by_cases hbj : 2 < B.p.getD (s + 1) 0 - B.p.getD s 0
      · rw [if_pos (decide_eq_true hbj)]
        have hprle : trimRight A.h (B.i.getD (B.p.getD (s + 1) 0 - 1) 0) ((A.nvec : Int) - 1) ≤
            (A.nvec : Int) - 1 := by
          have := trimRight_le A.h (B.i.getD (B.p.getD (s + 1) 0 - 1) 0)
          rw [hlen] at this
          exact this
        have hpr : ∀ pB ∈ List.range' (B.p.getD s 0) (B.p.getD (s + 1) 0 - B.p.getD s 0),
            ∀ p, p < A.nvec →
              trimRight A.h (B.i.getD (B.p.getD (s + 1) 0 - 1) 0) ((A.nvec : Int) - 1) <
                (p : Int) →
              B.i.getD pB 0 < A.h.getD p 0 := by
          intro pB hpB p hp hpgt
          have hchar := trimRight_char A.h (B.i.getD (B.p.getD (s + 1) 0 - 1) 0)
            (by rw [hlen]; exact hsort) p (by omega)
          rw [hlen] at hchar
          have hnot : ¬ A.h.getD p 0 ≤ B.i.getD (B.p.getD (s + 1) 0 - 1) 0 := by
            intro hle
            have := hchar.mpr hle
            omega
          have := hmaxle pB hpB
          omega
        have := hsaxpyGo_eq_naive_hyper S A B.i B.x _ hh hlen hsort hprle
          (List.range' (B.p.getD s 0) (B.p.getD (s + 1) 0 - B.p.getD s 0)) hkeys hpr 0 0
          (fun p hp => absurd hp (Nat.not_lt_zero p))
          (clearW S.identity C.i (cRangeFor C (jOf B s)).1 (cRangeFor C (jOf B s)).2 st2.w) []
        exact ⟨this.1,
          congrArg (fun w => (gatherC C.i (cRangeFor C (jOf B s)).1 (cRangeFor C (jOf B s)).2
            w st2.cx []).1) this.1,
          congrArg (fun L => st2.locs ++ L) this.2⟩
      · rw [if_neg (fun h => hbj (of_decide_eq_true h))]
        have hpr : ∀ pB ∈ List.range' (B.p.getD s 0) (B.p.getD (s + 1) 0 - B.p.getD s 0),
            ∀ p, p < A.nvec → ((A.nvec : Int) - 1) < (p : Int) →
              B.i.getD pB 0 < A.h.getD p 0 := by
          intro pB _ p hp hpgt
          omega
        have := hsaxpyGo_eq_naive_hyper S A B.i B.x _ hh hlen hsort (Int.le_refl _)
          (List.range' (B.p.getD s 0) (B.p.getD (s + 1) 0 - B.p.getD s 0)) hkeys hpr 0 0
          (fun p hp => absurd hp (Nat.not_lt_zero p))
          (clearW S.identity C.i (cRangeFor C (jOf B s)).1 (cRangeFor C (jOf B s)).2 st2.w) []
        exact ⟨this.1,
          congrArg (fun w => (gatherC C.i (cRangeFor C (jOf B s)).1 (cRangeFor C (jOf B s)).2
            w st2.cx []).1) this.1,
          congrArg (fun L => st2.locs ++ L) this.2⟩

theorem foldl_hcols_eq_naive {a b c : Type} [Inhabited a] [Inhabited b] (S : GBSemiring a b c)
    (A : GBMat a) (B : GBMat b) (C : GBMat c) (hWA : WFMat A) (hWB : WFMat B) :
    ∀ (l : List Nat), (∀ s ∈ l, s < B.nvec) →
      ∀ st1 st2 : HSt c, st1.w = st2.w → st1.cx = st2.cx → st1.locs = st2.locs →
      ((l.foldl (fun st s => hColBody S A B C s st) st1).w =
        (l.foldl (fun st s => hColBodyNaive S A B C s st) st2).w ∧
       (l.foldl (fun st s => hColBody S A B C s st) st1).cx =
        (l.foldl (fun st s => hColBodyNaive S A B C s st) st2).cx ∧
       (l.foldl (fun st s => hColBody S A B C s st) st1).locs =
        (l.foldl (fun st s => hColBodyNaive S A B C s st) st2).locs) := by
  intro l
  induction l with
  | nil => intro _ st1 st2 hw hcx hlocs; exact ⟨hw, hcx, hlocs⟩
  | cons s t ih =>
    intro hl st1 st2 hw hcx hlocs
    simp only [List.foldl_cons]
    obtain ⟨h1, h2, h3⟩ := hColBody_eq_naive S A B C s hWA hWB
      (hl s (List.mem_cons_self s t)) st1 st2 hw hcx hlocs
    exact ih (fun x hx => hl x (List.mem_cons_of_mem s hx)) _ _ h1 h2 h3

/-- C6: replacing the trimmed, window-reusing locator (right bound trimmed to
B's last referenced row id, each lookup's lower bound seeded by the previous
one) with a naive full-range search on every probe yields the identical
located slot (or not-found) for every probe of every column, and an
identical C value array: trimming is a pure optimization. -/
theorem C6_trimmed_locator_refines_naive {a b c : Type} [Inhabited a] [Inhabited b]
    (S : GBSemiring a b c) (A : GBMat a) (B : GBMat b) (C : GBMat c) (w0 cx0 : Nat → c)
    (hWA : WFMat A) (hWB : WFMat B) :
    (hGustavson S A B C w0 cx0).locs = (hGustavsonNaive S A B C w0 cx0).locs ∧
    (hGustavson S A B C w0 cx0).cx = (hGustavsonNaive S A B C w0 cx0).cx := by
  unfold hGustavson hGustavsonNaive
  have := foldl_hcols_eq_naive S A B C hWA hWB (List.range B.nvec)
    (fun s hs => List.mem_range.mp hs) ⟨w0, cx0, [], []⟩ ⟨w0, cx0, [], []⟩ rfl rfl rfl
  exact ⟨this.2.2, this.2.1⟩

/-- Witness for C6 on the hypersparse example (A hypersparse, three probes,
trimmed window (0,0)). -/
theorem C6_trimmed_locator_refines_naive_witness :
    (hGustavson exS hexA hexB hexC (fun _ => 0) (fun _ => 0)).locs =
      (hGustavsonNaive exS hexA hexB hexC (fun _ => 0) (fun _ => 0)).locs ∧
    (hGustavson exS hexA hexB hexC (fun _ => 0) (fun _ => 0)).cx =
      (hGustavsonNaive exS hexA hexB hexC (fun _ => 0) (fun _ => 0)).cx :=
  C6_trimmed_locator_refines_naive exS hexA hexB hexC (fun _ => 0) (fun _ => 0)
    (by decide) (by decide)
